import Mathlib

/-!
# Verification of the Liar's Dice CFR+ trainer

A shallow embedding of the Rust sources (`game.rs`, `cfr.rs`, `main.rs`) of the
`liar_dice_solver` repository, together with proofs of the specified properties.

* Machine floats (`f32`) are modelled by exact rationals `ℚ`; the source's
  "within floating-point tolerance" statements become exact equalities here.
* Rust `u8` values are modelled by `ℕ` (all values relevant to the claims stay
  far below 256, so wrap-around never matters).
* `HashMap<String, CFRNode>` is modelled by an association list with
  first-match lookup; every map/vector operation that can panic in Rust
  (`unwrap`, out-of-bounds indexing) is modelled in the `Option` monad, with
  `none` standing for a panic.
* The unbounded Rust recursion `CFRTrainer::cfr` is modelled with an explicit
  fuel parameter; `none` on fuel exhaustion.  Termination of the source
  recursion is expressed by the theorem that a fuel equal to the bid-chain
  bound `6 * total_dice + 1` is always sufficient.
-/

namespace LiarsDice

/-- `pub const DICE_FACES: u8 = 6;` from `game.rs`. -/
def DICE_FACES : ℕ := 6

/-- `enum Action { Bid(u8, u8), Challenge }` from `game.rs`. -/
inductive Action where
  | Bid : ℕ → ℕ → Action
  | Challenge : Action
deriving DecidableEq

/-- `struct GameState` from `game.rs` (hands are lists of faces, bid is an
optional (quantity, face) pair). -/
structure GameState where
  dice_p1 : ℕ
  dice_p2 : ℕ
  hand_p1 : List ℕ
  hand_p2 : List ℕ
  current_bid : Option (ℕ × ℕ)
  history : List Action
  current_player : ℕ
deriving DecidableEq

namespace GameState

/-- The local `total_dice = self.dice_p1 + self.dice_p2` computed in
`get_valid_actions`. -/
def total_dice (g : GameState) : ℕ := g.dice_p1 + g.dice_p2

/-- `GameState::get_valid_actions` from `game.rs`.  A Rust inclusive range
`a..=b` is `List.range' a (b + 1 - a)`. -/
def get_valid_actions (g : GameState) : List Action :=
  match g.current_bid with
  | some (curr_q, curr_f) =>
      -- 1. Challenge
      Action.Challenge ::
        -- 2. Raise Face: for f in (curr_f + 1)..=DICE_FACES
        (((List.range' (curr_f + 1) (DICE_FACES - curr_f)).map
            (fun f => Action.Bid curr_q f)) ++
         -- 3. Raise Quantity: for q in (curr_q + 1)..=total_dice, f in 1..=DICE_FACES
         ((List.range' (curr_q + 1) (g.total_dice - curr_q)).flatMap
            (fun q => (List.range' 1 DICE_FACES).map (fun f => Action.Bid q f))))
  | none =>
      -- First bid: for q in 1..=total_dice, f in 1..=DICE_FACES
      (List.range' 1 g.total_dice).flatMap
        (fun q => (List.range' 1 DICE_FACES).map (fun f => Action.Bid q f))

/-- `GameState::apply_action` from `game.rs`.  The Rust method mutates `self`
and returns the terminal flag; here it returns the new state and the flag.
`Challenge` returns `true` before any mutation. -/
def apply_action (g : GameState) (action : Action) : GameState × Bool :=
  match action with
  | Action.Challenge => (g, true)
  | Action.Bid q f =>
      ({ g with
          current_bid := some (q, f),
          history := g.history ++ [Action.Bid q f],
          current_player := 1 - g.current_player }, false)

/-- `GameState::get_payoff` from `game.rs`: payoff for the challenger
(`current_player`); `-1` when the bid held (`count >= bid_q`), `1` otherwise,
`0` when there is no bid. -/
def get_payoff (g : GameState) : ℚ :=
  match g.current_bid with
  | some (bid_q, bid_f) =>
      let count := (g.hand_p1 ++ g.hand_p2).count bid_f
      if bid_q ≤ count then (-1 : ℚ) else 1
  | none => 0

/-- `GameState::get_information_set` from `game.rs`:
`format!("{}|{}|{}", hand_str, bid_str, count_str)` where `hand_str`
concatenates the acting player's hand digits, `bid_str` is `"q-f"` or
`"None"`, and `count_str` is the history length. -/
def get_information_set (g : GameState) : String :=
  let my_hand := if g.current_player = 0 then g.hand_p1 else g.hand_p2
  let hand_str := my_hand.foldl (fun acc d => acc ++ Nat.repr d) ""
  let bid_str :=
    match g.current_bid with
    | some (q, f) => Nat.repr q ++ "-" ++ Nat.repr f
    | none => "None"
  hand_str ++ "|" ++ bid_str ++ "|" ++ Nat.repr g.history.length

end GameState

/-- Modelled from the spec: the reference action sequence of §4.1 / claim C1,
written with the quantity-major product enumeration the spec describes.  With
no outstanding bid: all `Bid(q, f)` with `q ∈ [1, total]`, `f ∈ [1, 6]`,
quantity-major then face-minor.  With an outstanding bid `(q, f)`:
`Challenge` first, then `(q, f+1) .. (q, 6)` in ascending face order, then all
faces of every strictly greater quantity, quantity-major. -/
def spec_valid_actions (g : GameState) : List Action :=
  let total := g.dice_p1 + g.dice_p2
  match g.current_bid with
  | none =>
      ((List.range' 1 total).product (List.range' 1 6)).map
        (fun p => Action.Bid p.1 p.2)
  | some (q, f) =>
      Action.Challenge ::
        ((List.range' (f + 1) (6 - f)).map (fun f' => Action.Bid q f') ++
         ((List.range' (q + 1) (total - q)).product (List.range' 1 6)).map
           (fun p => Action.Bid p.1 p.2))

/-- Well-formedness of an optional bid relative to a dice total `D`:
quantity in `[1, D]`, face in `[1, 6]`.  This is the invariant every bid
reachable through `get_valid_actions` satisfies. -/
def bidOK (D : ℕ) : Option (ℕ × ℕ) → Prop
  | none => True
  | some (q, f) => 1 ≤ q ∧ q ≤ D ∧ 1 ≤ f ∧ f ≤ 6

instance (D : ℕ) (b : Option (ℕ × ℕ)) : Decidable (bidOK D b) := by
  cases b with
  | none => exact isTrue trivial
  | some p =>
      exact (inferInstance :
        Decidable (1 ≤ p.1 ∧ p.1 ≤ D ∧ 1 ≤ p.2 ∧ p.2 ≤ 6))

/-- A state whose dice total is `D` and whose outstanding bid (if any) is
well-formed for `D`. -/
def StateOK (D : ℕ) (g : GameState) : Prop :=
  g.total_dice = D ∧ bidOK D g.current_bid

instance (D : ℕ) (g : GameState) : Decidable (StateOK D g) :=
  (inferInstance : Decidable (_ ∧ _))

/-- Strict lexicographic order on bids, quantity first: the order in which the
spec says bids must escalate. -/
def bidLexLt (b1 b2 : ℕ × ℕ) : Prop :=
  b1.1 < b2.1 ∨ (b1.1 = b2.1 ∧ b1.2 < b2.2)

instance (b1 b2 : ℕ × ℕ) : Decidable (bidLexLt b1 b2) :=
  (inferInstance : Decidable (_ ∨ _))

/-- Rank of an optional bid in the escalation chain: `none ↦ 0`,
`(q, f) ↦ (q - 1) * 6 + f`.  For well-formed bids this is a strictly monotone
image of the lexicographic order, with values in `[1, 6 * D]`. -/
def bidRank : Option (ℕ × ℕ) → ℕ
  | none => 0
  | some (q, f) => (q - 1) * 6 + f

/-- `struct CFRNode` from `cfr.rs` (`f32` vectors modelled by `ℚ` lists). -/
structure CFRNode where
  regret_sum : List ℚ
  strategy_sum : List ℚ
  num_actions : ℕ
deriving DecidableEq

/-- `CFRNode::new` from `cfr.rs`: two zero vectors of length `num_actions`. -/
def CFRNode.new (num_actions : ℕ) : CFRNode :=
  { regret_sum := List.replicate num_actions 0,
    strategy_sum := List.replicate num_actions 0,
    num_actions := num_actions }

/-- `for i in s..(s + c)` reading a fallible value at every index: the shape of
every indexing loop in `cfr.rs` / `main.rs`.  `none` models an index panic. -/
def readLoop (f : ℕ → Option ℚ) : ℕ → ℕ → Option (List ℚ)
  | _, 0 => some []
  | s, c + 1 =>
      match f s with
      | none => none
      | some x =>
          match readLoop f (s + 1) c with
          | none => none
          | some xs => some (x :: xs)

/-- `CFRNode::get_strategy` from `cfr.rs`.  First loop: positive part of each
regret and the normalizing sum; second loop: normalize (uniform fallback when
the normalizing sum is not positive) and accumulate
`strategy_sum[i] += realization_weight * strategy[i]`.  Returns the strategy
and the mutated node; `none` models an out-of-bounds panic. -/
def CFRNode.get_strategy (node : CFRNode) (realization_weight : ℚ) :
    Option (List ℚ × CFRNode) :=
  match readLoop (fun i => (node.regret_sum[i]?).map
      (fun r => if 0 < r then r else 0)) 0 node.num_actions with
  | none => none
  | some pos =>
      let normalizing_sum := pos.sum
      let strategy := pos.map
        (fun s => if 0 < normalizing_sum then s / normalizing_sum
                  else 1 / (node.num_actions : ℚ))
      match readLoop (fun i =>
          match node.strategy_sum[i]?, strategy[i]? with
          | some old, some st => some (old + realization_weight * st)
          | _, _ => none) 0 node.num_actions with
      | none => none
      | some ss =>
          some (strategy,
            { node with
                strategy_sum := ss ++ node.strategy_sum.drop node.num_actions })

/-- `CFRNode::get_average_strategy` from `cfr.rs`: normalize `strategy_sum`
(the whole-vector sum), uniform fallback when the sum is not positive. -/
def CFRNode.get_average_strategy (node : CFRNode) : Option (List ℚ) :=
  let normalizing_sum := node.strategy_sum.sum
  readLoop (fun i =>
      if 0 < normalizing_sum then (node.strategy_sum[i]?).map
        (fun s => s / normalizing_sum)
      else some (1 / (node.num_actions : ℚ))) 0 node.num_actions

/-- The regret-matching strategy computed (purely) inside
`CFRNode::get_strategy`: positive parts of `regret_sum`, normalized; uniform
`1 / num_actions` fallback when no regret is positive. -/
def strategyFor (node : CFRNode) : List ℚ :=
  let pos := node.regret_sum.map (fun r => if 0 < r then r else 0)
  pos.map (fun s => if 0 < pos.sum then s / pos.sum
                    else 1 / (node.num_actions : ℚ))

/-- A small concrete node used to instantiate theorems. -/
def egNode : CFRNode :=
  { regret_sum := [2, 0], strategy_sum := [1, 1], num_actions := 2 }

/-- The regret-update loop at the end of `CFRTrainer::cfr`
(`node_ref.regret_sum[i] = (node_ref.regret_sum[i] + weighted_regret).max(0.0)`
for `i in 0..num_actions`, with `weighted_regret = w * (util[i] - node_util)`
and `w` the opponent's reach weight). -/
def updateRegrets (node : CFRNode) (num_actions : ℕ) (w : ℚ)
    (util : List ℚ) (node_util : ℚ) : Option CFRNode :=
  match readLoop (fun i =>
      match node.regret_sum[i]?, util[i]? with
      | some old, some u => some (max (old + w * (u - node_util)) 0)
      | _, _ => none) 0 num_actions with
  | none => none
  | some r =>
      some { node with regret_sum := r ++ node.regret_sum.drop num_actions }

/-- The `HashMap<String, CFRNode>` node table, modelled as an association list
with first-match lookup. -/
abbrev Table := List (String × CFRNode)

/-- Map lookup (`HashMap::get` / a hit of the `entry` API). -/
def lookupT : Table → String → Option CFRNode
  | [], _ => none
  | (k, n) :: rest, key => if k = key then some n else lookupT rest key

/-- Map write: replace the first binding when the key is present, append
otherwise (`entry(..).or_insert_with(..)` / writing through `get_mut`). -/
def insertT : Table → String → CFRNode → Table
  | [], key, n => [(key, n)]
  | (k, m) :: rest, key, n =>
      if k = key then (key, n) :: rest else (k, m) :: insertT rest key n

/-- The action loop of `CFRTrainer::cfr`, parameterized by the recursive call
`rec` (which will be `cfr` at one unit less fuel).  For the `i`-th action:
read `strategy[i]`, clone-and-apply the action, take the terminal payoff or
the negated recursive value (the acting player's reach weight multiplied by
`strategy[i]`), and accumulate `node_util += strategy[i] * util[i]`.  Returns
the utility vector, the node utility and the threaded table. -/
def cfrActions (rec : GameState → ℚ → ℚ → Table → Option (ℚ × Table))
    (g : GameState) (p0_weight p1_weight : ℚ) (strategy : List ℚ) :
    ℕ → List Action → Table → Option (List ℚ × ℚ × Table)
  | _, [], T => some ([], 0, T)
  | i, action :: rest, T =>
      match strategy[i]? with
      | none => none
      | some st =>
          let next := g.apply_action action
          let step : Option (ℚ × Table) :=
            if next.2 then some (next.1.get_payoff, T)
            else
              match (if g.current_player = 0 then
                       rec next.1 (p0_weight * st) p1_weight T
                     else
                       rec next.1 p0_weight (p1_weight * st) T) with
              | none => none
              | some (v, T') => some (-v, T')
          match step with
          | none => none
          | some (u, T') =>
              match cfrActions rec g p0_weight p1_weight strategy
                  (i + 1) rest T' with
              | none => none
              | some (us, nu, T'') => some (u :: us, st * u + nu, T'')

/-- `CFRTrainer::cfr` from `cfr.rs`, with an explicit fuel parameter bounding
the recursion depth (`none` on fuel exhaustion or on any map/vector panic).
Structure of one call: empty-action early return `0`; fetch-or-create the
node of the information set; `get_strategy` with the *acting* player's reach
weight (the mutation is written back, as through the Rust `&mut` reference);
the action loop; re-lookup of the node (`nodes.get_mut(..).unwrap()`); the
CFR+ regret update weighted by the *other* player's reach weight. -/
def cfr : ℕ → GameState → ℚ → ℚ → Table → Option (ℚ × Table)
  | 0, _, _, _, _ => none
  | fuel + 1, g, p0_weight, p1_weight, T =>
      let player := g.current_player
      let valid_actions := g.get_valid_actions
      if valid_actions = [] then some (0, T)
      else
        let info_set := g.get_information_set
        let node0 := (lookupT T info_set).getD (CFRNode.new valid_actions.length)
        match node0.get_strategy (if player = 0 then p0_weight else p1_weight) with
        | none => none
        | some (strategy, node1) =>
            let T1 := insertT T info_set node1
            match cfrActions (cfr fuel) g p0_weight p1_weight strategy
                0 valid_actions T1 with
            | none => none
            | some (util, node_util, T2) =>
                match lookupT T2 info_set with
                | none => none
                | some node_ref =>
                    match updateRegrets node_ref valid_actions.length
                        (if player = 0 then p1_weight else p0_weight)
                        util node_util with
                    | none => none
                    | some node2 => some (node_util, insertT T2 info_set node2)

/-- The per-node body of `merge_nodes` from `main.rs`: the existing (or fresh
zero) node `node1` receives `node2`'s entries,
`for i in 0..node1.num_actions { regret_sum[i] += ...; strategy_sum[i] += ... }`. -/
def mergeNodeOp (node1 node2 : CFRNode) : Option CFRNode :=
  match readLoop (fun i =>
      match node1.regret_sum[i]?, node2.regret_sum[i]? with
      | some a, some b => some (a + b)
      | _, _ => none) 0 node1.num_actions with
  | none => none
  | some r =>
      match readLoop (fun i =>
          match node1.strategy_sum[i]?, node2.strategy_sum[i]? with
          | some a, some b => some (a + b)
          | _, _ => none) 0 node1.num_actions with
      | none => none
      | some s =>
          some { regret_sum := r ++ node1.regret_sum.drop node1.num_actions,
                 strategy_sum := s ++ node1.strategy_sum.drop node1.num_actions,
                 num_actions := node1.num_actions }

/-- `merge_nodes` from `main.rs`: fold `map2`'s entries into `map1`, creating
a zero node (`CFRNode::new(node2.num_actions)`) for keys `map1` lacks. -/
def merge_nodes (map1 map2 : Table) : Option Table :=
  map2.foldlM (fun acc kv =>
    match mergeNodeOp ((lookupT acc kv.1).getD (CFRNode.new kv.2.num_actions))
        kv.2 with
    | none => none
    | some merged => some (insertT acc kv.1 merged)) map1

/-- Modelled from the spec: the per-key merged node of §4.4 / claim C6 — the
elementwise sum of the two sources' vectors, a missing side contributing a
zero vector of matching length (hence acting as identity). -/
def specMergeNode : Option CFRNode → Option CFRNode → Option CFRNode
  | none, none => none
  | some n, none => some n
  | none, some n => some n
  | some n1, some n2 =>
      some { regret_sum := List.zipWith (· + ·) n1.regret_sum n2.regret_sum,
             strategy_sum := List.zipWith (· + ·) n1.strategy_sum n2.strategy_sum,
             num_actions := n1.num_actions }

/-- Structural invariant of every `CFRNode` the program builds: both vectors
have length `num_actions`. -/
def NodeWF (n : CFRNode) : Prop :=
  n.regret_sum.length = n.num_actions ∧ n.strategy_sum.length = n.num_actions

instance (n : CFRNode) : Decidable (NodeWF n) :=
  (inferInstance : Decidable (_ ∧ _))

/-- All cumulative regrets of a node are non-negative (the CFR+ floor). -/
def NodeNonneg (n : CFRNode) : Prop := ∀ x ∈ n.regret_sum, 0 ≤ x

instance (n : CFRNode) : Decidable (NodeNonneg n) :=
  (inferInstance : Decidable (∀ x ∈ n.regret_sum, 0 ≤ x))

/-- Every node stored in the table has only non-negative regrets. -/
def TableNonneg (T : Table) : Prop := ∀ p ∈ T, NodeNonneg p.2

/-- Table invariant tying every stored node to the game, for a fixed dice
total `D`: the node is well-formed and its `num_actions` equals the length of
the valid-action list of every well-formed state keyed by the same
information set. -/
def TableOK (D : ℕ) (T : Table) : Prop :=
  ∀ k n, lookupT T k = some n →
    NodeWF n ∧
    ∀ g, StateOK D g → g.get_information_set = k →
      (g.get_valid_actions).length = n.num_actions

/-- Tables with distinct keys and well-formed nodes (what `HashMap` guarantees
structurally in the Rust program). -/
def TableWF (T : Table) : Prop :=
  (T.map Prod.fst).Nodup ∧ ∀ p ∈ T, NodeWF p.2

/-- Nodes stored under a common key by two tables agree on `num_actions`
(claim C6's compatibility hypothesis). -/
def Compat (A B : Table) : Prop :=
  ∀ k nA nB, lookupT A k = some nA → lookupT B k = some nB →
    nA.num_actions = nB.num_actions

/-- `T'` contains every key `T` contains (no training-run operation ever
removes a map entry). -/
def TableExtends (T T' : Table) : Prop :=
  ∀ k, (lookupT T k).isSome → (lookupT T' k).isSome

/-- Every key whose binding differs between `T` and `T'` is the information
set of some state with history length at least `L` (used to show a `cfr` call
never disturbs the node of a shorter history). -/
def ModifiedKeysLen (L : ℕ) (T T' : Table) : Prop :=
  ∀ k, lookupT T' k ≠ lookupT T k →
    ∃ g' : GameState, k = g'.get_information_set ∧ L ≤ g'.history.length

/-- The success contract of one `cfr` call on state `g` against table `T`:
it returns a value and a table that is still consistent (`TableOK`), loses no
keys, and modifies only keys of information sets at history length
`≥ g.history.length`. -/
def CfrEnsures (D : ℕ) (g : GameState) (T : Table)
    (res : Option (ℚ × Table)) : Prop :=
  ∃ v T', res = some (v, T') ∧ TableOK D T' ∧ TableExtends T T' ∧
    ModifiedKeysLen g.history.length T T'

/-- The tables reachable by the program: the empty table, any successful `cfr`
update of a reachable table, and any successful `merge_nodes` of two
reachable tables. -/
inductive ReachableTable : Table → Prop
  | empty : ReachableTable []
  | step (fuel : ℕ) (g : GameState) (p0_weight p1_weight : ℚ) (T : Table)
      (v : ℚ) (T' : Table) : ReachableTable T →
      cfr fuel g p0_weight p1_weight T = some (v, T') → ReachableTable T'
  | merge (A B M : Table) : ReachableTable A → ReachableTable B →
      merge_nodes A B = some M → ReachableTable M

/-- The big-endian decimal digit characters of `n`: the reference rendering
that `Nat.toDigitsCore` (hence `Nat.repr`, hence Rust's `to_string`)
produces. -/
def decChars (n : ℕ) : List Char :=
  if _h : n < 10 then [Nat.digitChar n]
  else decChars (n / 10) ++ [Nat.digitChar (n % 10)]
termination_by n
decreasing_by
  exact Nat.div_lt_self (by omega) (by omega)

/-- A small concrete state used to instantiate theorems: one die per player,
outstanding bid `(1, 2)`, player 1 to act. -/
def egBid : GameState :=
  { dice_p1 := 1, dice_p2 := 1, hand_p1 := [3], hand_p2 := [4],
    current_bid := some (1, 2), history := [Action.Bid 1 2],
    current_player := 1 }

/-- A fresh concrete state used to instantiate theorems: one die per player,
no bid yet, player 0 to act. -/
def egFresh : GameState :=
  { dice_p1 := 1, dice_p2 := 1, hand_p1 := [3], hand_p2 := [4],
    current_bid := none, history := [], current_player := 0 }

/-- A concrete state distinct from `egBid` that produces the same
information-set key (player 0 holding the die `egBid`'s player 1 holds). -/
def egBid2 : GameState :=
  { dice_p1 := 1, dice_p2 := 1, hand_p1 := [4], hand_p2 := [2],
    current_bid := some (1, 2), history := [Action.Bid 1 2],
    current_player := 0 }

/-! ## Helper lemmas about the indexing loops -/

theorem readLoop_map_get (l : List ℚ) (h : ℚ → ℚ) :
    ∀ c s, s + c ≤ l.length →
      readLoop (fun i => (l[i]?).map h) s c = some (((l.drop s).take c).map h) := by
  intro c
  induction c with
  | zero => intro s _; simp [readLoop]
  | succ c ih =>
      intro s hs
      have hlt : s < l.length := by omega
      rw [readLoop, List.getElem?_eq_getElem hlt]
      rw [ih (s + 1) (by omega)]
      have hsplit : (l.drop s).take (c + 1) = l[s] :: (l.drop (s + 1)).take c := by
        rw [List.drop_eq_getElem_cons hlt, List.take_succ_cons]
      rw [hsplit]
      simp

theorem readLoop_zip (l1 l2 : List ℚ) (g : ℚ → ℚ → ℚ) :
    ∀ c s, s + c ≤ l1.length → s + c ≤ l2.length →
      readLoop (fun i =>
          match l1[i]?, l2[i]? with
          | some a, some b => some (g a b)
          | _, _ => none) s c =
        some (List.zipWith g ((l1.drop s).take c) ((l2.drop s).take c)) := by
  intro c
  induction c with
  | zero => intro s _ _; simp [readLoop]
  | succ c ih =>
      intro s hs1 hs2
      have h1 : s < l1.length := by omega
      have h2 : s < l2.length := by omega
      rw [readLoop, List.getElem?_eq_getElem h1, List.getElem?_eq_getElem h2]
      rw [ih (s + 1) (by omega) (by omega)]
      have hsplit1 : (l1.drop s).take (c + 1) = l1[s] :: (l1.drop (s + 1)).take c := by
        rw [List.drop_eq_getElem_cons h1, List.take_succ_cons]
      have hsplit2 : (l2.drop s).take (c + 1) = l2[s] :: (l2.drop (s + 1)).take c := by
        rw [List.drop_eq_getElem_cons h2, List.take_succ_cons]
      rw [hsplit1, hsplit2]
      simp

theorem readLoop_const (c₀ : ℚ) : ∀ c s,
    readLoop (fun _ => some c₀) s c = some (List.replicate c c₀) := by
  intro c
  induction c with
  | zero => intro s; simp [readLoop]
  | succ c ih => intro s; rw [readLoop, ih (s + 1)]; simp [List.replicate]

theorem sum_map_div (l : List ℚ) (c : ℚ) : (l.map (· / c)).sum = l.sum / c := by
  induction l with
  | nil => simp
  | cons x xs ih => simp [ih, add_div]

/-! ## Decimal rendering: `Nat.repr` produces digit characters, injectively -/

theorem decChars_small {n : ℕ} (h : n < 10) :
    decChars n = [Nat.digitChar n] := by
  rw [decChars, dif_pos h]

theorem decChars_large {n : ℕ} (h : ¬ n < 10) :
    decChars n = decChars (n / 10) ++ [Nat.digitChar (n % 10)] := by
  rw [decChars]
  rw [dif_neg h]

theorem digitChar_isDigit : ∀ k : Fin 10, (Nat.digitChar k.val).isDigit = true := by
  decide

theorem digitChar_inj :
    ∀ a b : Fin 10, Nat.digitChar a.val = Nat.digitChar b.val → a = b := by
  decide

theorem decChars_digits : ∀ n, ∀ c ∈ decChars n, c.isDigit = true := by
  intro n
  induction n using Nat.strong_induction_on with
  | _ n ih =>
      by_cases h : n < 10
      · rw [decChars_small h]
        intro c hc
        rw [List.mem_singleton] at hc
        subst hc
        exact digitChar_isDigit ⟨n, h⟩
      · rw [decChars_large h]
        intro c hc
        rcases List.mem_append.mp hc with hc' | hc'
        · exact ih (n / 10) (Nat.div_lt_self (by omega) (by omega)) c hc'
        · rw [List.mem_singleton] at hc'
          subst hc'
          exact digitChar_isDigit ⟨n % 10, Nat.mod_lt _ (by omega)⟩

theorem decChars_length_pos (n : ℕ) : 0 < (decChars n).length := by
  by_cases h : n < 10
  · rw [decChars_small h]; simp
  · rw [decChars_large h]; simp

theorem decChars_inj : ∀ n, ∀ m, decChars n = decChars m → n = m := by
  intro n
  induction n using Nat.strong_induction_on with
  | _ n ih =>
      intro m h
      by_cases hn : n < 10 <;> by_cases hm : m < 10
      · rw [decChars_small hn, decChars_small hm] at h
        have := digitChar_inj ⟨n, hn⟩ ⟨m, hm⟩ (by injection h)
        exact congrArg Fin.val this
      · exfalso
        rw [decChars_small hn, decChars_large hm] at h
        have hlen := congrArg List.length h
        rw [List.length_singleton, List.length_append,
          List.length_singleton] at hlen
        have hp := decChars_length_pos (m / 10)
        omega
      · exfalso
        rw [decChars_large hn, decChars_small hm] at h
        have hlen := congrArg List.length h
        rw [List.length_append, List.length_singleton,
          List.length_singleton] at hlen
        have hp := decChars_length_pos (n / 10)
        omega
      · rw [decChars_large hn, decChars_large hm] at h
        obtain ⟨h1, h2⟩ := List.append_inj' h (by simp)
        have hmod : n % 10 = m % 10 := by
          have := digitChar_inj ⟨n % 10, Nat.mod_lt _ (by omega)⟩
            ⟨m % 10, Nat.mod_lt _ (by omega)⟩ (by injection h2)
          exact congrArg Fin.val this
        have hdiv : n / 10 = m / 10 :=
          ih (n / 10) (Nat.div_lt_self (by omega) (by omega)) (m / 10) h1
        omega

theorem toDigitsCore_10 : ∀ fuel n acc, 0 < fuel → n < 10 ^ fuel →
    Nat.toDigitsCore 10 fuel n acc = decChars n ++ acc := by
  intro fuel
  induction fuel with
  | zero => intro n acc h _; omega
  | succ fuel ih =>
      intro n acc _ hlt
      by_cases h : n / 10 = 0
      · have hn : n < 10 := by omega
        simp only [Nat.toDigitsCore, h, if_true]
        rw [decChars_small hn, Nat.mod_eq_of_lt hn]
        rfl
      · have hn : ¬ n < 10 := by omega
        have hfuel : 0 < fuel := by
          rcases Nat.eq_zero_or_pos fuel with h0 | h0
          · subst h0; simp at hlt; omega
          · exact h0
        have hdiv : n / 10 < 10 ^ fuel := by
          have h10 : (10 : ℕ) ^ (fuel + 1) = 10 * 10 ^ fuel := by ring
          rw [h10] at hlt
          exact Nat.div_lt_of_lt_mul hlt
        simp only [Nat.toDigitsCore, h, if_false]
        rw [ih (n / 10) (Nat.digitChar (n % 10) :: acc) hfuel hdiv]
        rw [decChars_large hn, List.append_assoc]
        rfl

theorem repr_data (n : ℕ) : (Nat.repr n).data = decChars n := by
  have hpow : n < 10 ^ (n + 1) := by
    calc n < 2 ^ n := Nat.lt_two_pow n
    _ ≤ 10 ^ n := Nat.pow_le_pow_left (by norm_num) n
    _ ≤ 10 ^ (n + 1) := Nat.pow_le_pow_right (by norm_num) (by omega)
  show (List.asString (Nat.toDigits 10 n)).data = decChars n
  rw [Nat.toDigits, toDigitsCore_10 (n + 1) n [] (by omega) hpow,
    List.append_nil]
  rfl

theorem repr_digits (n : ℕ) : ∀ c ∈ (Nat.repr n).data, c.isDigit = true := by
  rw [repr_data]
  exact decChars_digits n

theorem repr_data_inj {m n : ℕ} (h : (Nat.repr m).data = (Nat.repr n).data) :
    m = n := by
  rw [repr_data, repr_data] at h
  exact decChars_inj m n h

theorem pipe_not_digit : ∀ c : Char, c.isDigit = true → c ≠ '|' := by
  intro c hc he
  subst he
  simp [Char.isDigit] at hc

theorem dash_not_digit : ∀ c : Char, c.isDigit = true → c ≠ '-' := by
  intro c hc he
  subst he
  simp [Char.isDigit] at hc

theorem append_sep_inj {sep : Char} :
    ∀ (a a' b b' : List Char), sep ∉ a → sep ∉ a' →
      a ++ sep :: b = a' ++ sep :: b' → a = a' ∧ b = b' := by
  intro a
  induction a with
  | nil =>
      intro a' b b' _ ha' h
      cases a' with
      | nil => simpa using h
      | cons y ys =>
          exfalso
          simp only [List.nil_append, List.cons_append] at h
          injection h with h1 _
          exact ha' (h1 ▸ List.mem_cons_self y ys)
  | cons x xs ih =>
      intro a' b b' ha ha' h
      cases a' with
      | nil =>
          exfalso
          simp only [List.nil_append, List.cons_append] at h
          injection h with h1 _
          exact ha (h1 ▸ List.mem_cons_self x xs)
      | cons y ys =>
          simp only [List.cons_append] at h
          injection h with h1 h2
          subst h1
          obtain ⟨hl, hr⟩ := ih ys b b'
            (fun hm => ha (List.mem_cons_of_mem x hm))
            (fun hm => ha' (List.mem_cons_of_mem x hm)) h2
          exact ⟨by rw [hl], hr⟩

/-! ## Information-set key structure -/

theorem foldl_repr_digits (l : List ℕ) :
    ∀ (s : String), (∀ c ∈ s.data, c.isDigit = true) →
      ∀ c ∈ (l.foldl (fun acc d => acc ++ Nat.repr d) s).data,
        c.isDigit = true := by
  induction l with
  | nil => intro s hs c hc; exact hs c hc
  | cons d rest ih =>
      intro s hs c hc
      refine ih (s ++ Nat.repr d) ?_ c hc
      intro c' hc'
      rw [String.data_append] at hc'
      rcases List.mem_append.mp hc' with h | h
      · exact hs c' h
      · exact repr_digits d c' h

theorem info_set_data (g : GameState) :
    (g.get_information_set).data =
      ((if g.current_player = 0 then g.hand_p1 else g.hand_p2).foldl
          (fun acc d => acc ++ Nat.repr d) "").data ++
        '|' :: ((match g.current_bid with
                 | some (q, f) => (Nat.repr q).data ++ '-' :: (Nat.repr f).data
                 | none => ['N', 'o', 'n', 'e']) ++
          '|' :: (Nat.repr g.history.length).data) := by
  unfold GameState.get_information_set
  cases hb : g.current_bid with
  | none =>
      simp only [String.data_append]
      simp [List.append_assoc, List.singleton_append]
  | some p =>
      rcases p with ⟨q, f⟩
      simp only [String.data_append]
      simp [List.append_assoc, List.singleton_append]

theorem get_information_set_inj {g1 g2 : GameState}
    (h : g1.get_information_set = g2.get_information_set) :
    g1.current_bid = g2.current_bid ∧
      g1.history.length = g2.history.length := by
  have hd := congrArg String.data h
  rw [info_set_data, info_set_data] at hd
  have hhand1 : ('|' : Char) ∉ ((if g1.current_player = 0 then g1.hand_p1
      else g1.hand_p2).foldl (fun acc d => acc ++ Nat.repr d) "").data := by
    intro hm
    exact pipe_not_digit _ (foldl_repr_digits _ "" (by simp) _ hm) rfl
  have hhand2 : ('|' : Char) ∉ ((if g2.current_player = 0 then g2.hand_p1
      else g2.hand_p2).foldl (fun acc d => acc ++ Nat.repr d) "").data := by
    intro hm
    exact pipe_not_digit _ (foldl_repr_digits _ "" (by simp) _ hm) rfl
  obtain ⟨-, hrest⟩ := append_sep_inj _ _ _ _ hhand1 hhand2 hd
  have hbidpipe : ∀ (b : Option (ℕ × ℕ)), ('|' : Char) ∉
      (match b with
       | some (q, f) => (Nat.repr q).data ++ '-' :: (Nat.repr f).data
       | none => ['N', 'o', 'n', 'e']) := by
    intro b hm
    cases b with
    | none => simp at hm
    | some p =>
        rcases p with ⟨q, f⟩
        simp only [List.mem_append, List.mem_cons] at hm
        rcases hm with hm | hm | hm
        · exact pipe_not_digit _ (repr_digits q _ hm) rfl
        · exact absurd hm (by decide)
        · exact pipe_not_digit _ (repr_digits f _ hm) rfl
  obtain ⟨hbid, hcount⟩ := append_sep_inj _ _ _ _
    (hbidpipe g1.current_bid) (hbidpipe g2.current_bid) hrest
  constructor
  · cases hb1 : g1.current_bid with
    | none =>
        cases hb2 : g2.current_bid with
        | none => rfl
        | some p =>
            exfalso
            rcases p with ⟨q, f⟩
            rw [hb1, hb2] at hbid
            simp only at hbid
            have : ('-' : Char) ∈ (['N', 'o', 'n', 'e'] : List Char) := by
              rw [hbid]
              simp
            exact absurd this (by decide)
    | some p =>
        rcases p with ⟨q, f⟩
        cases hb2 : g2.current_bid with
        | none =>
            exfalso
            rw [hb1, hb2] at hbid
            simp only at hbid
            have : ('-' : Char) ∈ (['N', 'o', 'n', 'e'] : List Char) := by
              rw [← hbid]
              simp
            exact absurd this (by decide)
        | some p2 =>
            rcases p2 with ⟨q2, f2⟩
            rw [hb1, hb2] at hbid
            simp only at hbid
            have hq1 : ('-' : Char) ∉ (Nat.repr q).data := by
              intro hm
              exact dash_not_digit _ (repr_digits q _ hm) rfl
            have hq2 : ('-' : Char) ∉ (Nat.repr q2).data := by
              intro hm
              exact dash_not_digit _ (repr_digits q2 _ hm) rfl
            obtain ⟨hqq, hff⟩ := append_sep_inj _ _ _ _ hq1 hq2 hbid
            rw [repr_data_inj hqq, repr_data_inj hff]
  · exact repr_data_inj hcount

theorem get_valid_actions_eq_of_info_set {g1 g2 : GameState}
    (htot : g1.total_dice = g2.total_dice)
    (hinfo : g1.get_information_set = g2.get_information_set) :
    g1.get_valid_actions = g2.get_valid_actions := by
  obtain ⟨hbid, -⟩ := get_information_set_inj hinfo
  have htot' : g1.dice_p1 + g1.dice_p2 = g2.dice_p1 + g2.dice_p2 := htot
  cases hb2 : g2.current_bid with
  | none =>
      rw [GameState.get_valid_actions, GameState.get_valid_actions]
      rw [hbid, hb2]
      simp only [GameState.total_dice, htot']
  | some p =>
      rcases p with ⟨q, f⟩
      rw [GameState.get_valid_actions, GameState.get_valid_actions]
      rw [hbid, hb2]
      simp only [GameState.total_dice, htot']

/-! ## Game-model lemmas -/

namespace GameState

theorem get_valid_actions_eq_spec (g : GameState) :
    g.get_valid_actions = spec_valid_actions g := by
  rcases g with ⟨d1, d2, h1, h2, bid, hist, cp⟩
  cases bid with
  | none =>
      simp [get_valid_actions, spec_valid_actions, total_dice, DICE_FACES,
        List.product, List.map_flatMap, Function.comp_def]
  | some p =>
      rcases p with ⟨q, f⟩
      simp [get_valid_actions, spec_valid_actions, total_dice, DICE_FACES,
        List.product, List.map_flatMap, Function.comp_def]

theorem mem_get_valid_actions_bid {g : GameState} {q f : ℕ}
    (h : Action.Bid q f ∈ g.get_valid_actions) :
    (g.current_bid = none ∧ 1 ≤ q ∧ q ≤ g.total_dice ∧ 1 ≤ f ∧ f ≤ 6) ∨
    (∃ cq cf, g.current_bid = some (cq, cf) ∧
      ((q = cq ∧ cf + 1 ≤ f ∧ f < cf + 1 + (6 - cf)) ∨
       (cq + 1 ≤ q ∧ q < cq + 1 + (g.total_dice - cq) ∧ 1 ≤ f ∧ f ≤ 6))) := by
  rcases g with ⟨d1, d2, h1, h2, bid, hist, cp⟩
  cases bid with
  | none =>
      left
      simp only [get_valid_actions, DICE_FACES, List.mem_flatMap, List.mem_map,
        List.mem_range'_1] at h
      obtain ⟨a, ha, b, hb, hab⟩ := h
      cases hab
      refine ⟨rfl, ?_, ?_, ?_, ?_⟩ <;> simp [total_dice] at * <;> omega
  | some p =>
      rcases p with ⟨cq, cf⟩
      right
      refine ⟨cq, cf, rfl, ?_⟩
      simp only [get_valid_actions, DICE_FACES, List.mem_cons, List.mem_append,
        List.mem_flatMap, List.mem_map, List.mem_range'_1] at h
      rcases h with h | h | h
      · exact absurd h (by simp)
      · obtain ⟨a, ha, hab⟩ := h
        cases hab
        left; exact ⟨rfl, ha.1, ha.2⟩
      · obtain ⟨a, ha, b, hb, hab⟩ := h
        cases hab
        right
        exact ⟨ha.1, by simpa [total_dice] using ha.2, hb.1, by omega⟩

theorem challenge_mem_get_valid_actions {g : GameState} {cq cf : ℕ}
    (h : g.current_bid = some (cq, cf)) :
    Action.Challenge ∈ g.get_valid_actions := by
  rcases g with ⟨d1, d2, h1, h2, bid, hist, cp⟩
  cases h
  simp [get_valid_actions]

theorem bid_one_one_mem_get_valid_actions {g : GameState}
    (h : g.current_bid = none) (htot : 1 ≤ g.total_dice) :
    Action.Bid 1 1 ∈ g.get_valid_actions := by
  rcases g with ⟨d1, d2, h1, h2, bid, hist, cp⟩
  cases h
  simp only [get_valid_actions, DICE_FACES, List.mem_flatMap, List.mem_map,
    List.mem_range'_1]
  exact ⟨1, ⟨le_refl 1, by simp [total_dice] at htot ⊢; omega⟩, 1, by omega, rfl⟩

theorem challenge_not_mem_of_no_bid {g : GameState}
    (h : g.current_bid = none) : Action.Challenge ∉ g.get_valid_actions := by
  rcases g with ⟨d1, d2, h1, h2, bid, hist, cp⟩
  cases h
  simp [get_valid_actions, DICE_FACES]

end GameState

/-! ## Claims C1, C5, C7 -/

/-- C1: on any state whose outstanding bid (if any) is well-formed for the
dice total `D`, `get_valid_actions` returns exactly the reference sequence of
the spec (no bid: all `(q, f)` with `q ∈ [1, D]`, `f ∈ [1, 6]`,
quantity-major face-minor; bid `(q, f)`: `Challenge`, then same-quantity
higher faces ascending, then all faces of each greater quantity); hence every
returned bid has quantity in `[1, D]` and face in `[1, 6]`, and the sequence
is non-empty whenever `D ≥ 1`. -/
theorem claim_C1 (g : GameState) (D : ℕ) (hD : g.total_dice = D)
    (hbid : bidOK D g.current_bid) :
    g.get_valid_actions = spec_valid_actions g ∧
    (∀ q f, Action.Bid q f ∈ g.get_valid_actions →
      1 ≤ q ∧ q ≤ D ∧ 1 ≤ f ∧ f ≤ 6) ∧
    (1 ≤ D → g.get_valid_actions ≠ []) := by
  refine ⟨g.get_valid_actions_eq_spec, ?_, ?_⟩
  · intro q f h
    rcases g.mem_get_valid_actions_bid h with ⟨_, hq1, hq2, hf1, hf2⟩ |
      ⟨cq, cf, hcb, hcase⟩
    · exact ⟨hq1, by omega, hf1, hf2⟩
    · rw [hcb] at hbid
      obtain ⟨hcq1, hcq2, hcf1, hcf2⟩ := hbid
      rcases hcase with ⟨rfl, hf⟩ | ⟨hq1', hq2', hf1, hf2⟩
      · exact ⟨hcq1, by omega, by omega, by omega⟩
      · refine ⟨by omega, by omega, hf1, hf2⟩
  · intro hD1
    cases hcb : g.current_bid with
    | some p =>
        obtain ⟨cq, cf⟩ := p
        exact List.ne_nil_of_mem (g.challenge_mem_get_valid_actions hcb)
    | none =>
        exact List.ne_nil_of_mem
          (g.bid_one_one_mem_get_valid_actions hcb (by omega))

/-- Witness for C1 at a concrete state with an outstanding bid. -/
theorem claim_C1_witness :
    egBid.get_valid_actions = spec_valid_actions egBid ∧
    (∀ q f, Action.Bid q f ∈ egBid.get_valid_actions →
      1 ≤ q ∧ q ≤ 2 ∧ 1 ≤ f ∧ f ≤ 6) ∧
    (1 ≤ 2 → egBid.get_valid_actions ≠ []) :=
  claim_C1 egBid 2 (by decide) (by decide)

/-- C5: on a terminal state with bid `(q, f)`, the payoff (from the
challenger's, i.e. `current_player`'s, perspective) is `-1` when the two
hands hold at least `q` dice showing `f` and `1` otherwise — always `±1`,
never `0`; and `get_payoff` returns `0` exactly on states with no bid. -/
theorem claim_C5 (g : GameState) (q f : ℕ)
    (hb : g.current_bid = some (q, f)) :
    (q ≤ (g.hand_p1 ++ g.hand_p2).count f → g.get_payoff = -1) ∧
    ((g.hand_p1 ++ g.hand_p2).count f < q → g.get_payoff = 1) ∧
    g.get_payoff ≠ 0 ∧
    (∀ g' : GameState, g'.get_payoff = 0 ↔ g'.current_bid = none) := by
  have hpay : g.get_payoff =
      if q ≤ (g.hand_p1 ++ g.hand_p2).count f then (-1 : ℚ) else 1 := by
    simp only [GameState.get_payoff, hb]
  refine ⟨?_, ?_, ?_, ?_⟩
  · intro h
    rw [hpay, if_pos h]
  · intro h
    rw [hpay, if_neg (by omega)]
  · rw [hpay]
    by_cases h : q ≤ (g.hand_p1 ++ g.hand_p2).count f
    · rw [if_pos h]; norm_num
    · rw [if_neg h]; norm_num
  · intro g'
    constructor
    · intro h0
      cases hcb : g'.current_bid with
      | none => rfl
      | some p =>
          exfalso
          rcases p with ⟨q', f'⟩
          simp only [GameState.get_payoff, hcb] at h0
          split at h0 <;> norm_num at h0
    · intro h
      simp [GameState.get_payoff, h]

/-- Witness for C5 at a concrete terminal state (bid `(1, 2)`, no die shows
face 2, so the challenger wins). -/
theorem claim_C5_witness :
    (1 ≤ (egBid.hand_p1 ++ egBid.hand_p2).count 2 → egBid.get_payoff = -1) ∧
    ((egBid.hand_p1 ++ egBid.hand_p2).count 2 < 1 → egBid.get_payoff = 1) ∧
    egBid.get_payoff ≠ 0 ∧
    (∀ g' : GameState, g'.get_payoff = 0 ↔ g'.current_bid = none) :=
  claim_C5 egBid 1 2 rfl

/-- C7: `apply_action Challenge` reports terminal and leaves every field of
the state unchanged (so the terminal state's `current_player` is the
challenger); `apply_action (Bid q f)` reports non-terminal, sets the bid,
appends exactly that action to the history, flips `current_player` between 0
and 1, and changes no other field. -/
theorem claim_C7 (g : GameState) (q f : ℕ) (hp : g.current_player ≤ 1) :
    g.apply_action Action.Challenge = (g, true) ∧
    g.apply_action (Action.Bid q f) =
      ({ dice_p1 := g.dice_p1, dice_p2 := g.dice_p2, hand_p1 := g.hand_p1,
         hand_p2 := g.hand_p2, current_bid := some (q, f),
         history := g.history ++ [Action.Bid q f],
         current_player := 1 - g.current_player }, false) ∧
    (g.apply_action (Action.Bid q f)).1.current_player ≠ g.current_player ∧
    (g.apply_action (Action.Bid q f)).1.current_player ≤ 1 := by
  refine ⟨rfl, rfl, ?_, ?_⟩
  · show 1 - g.current_player ≠ g.current_player
    omega
  · show 1 - g.current_player ≤ 1
    omega

/-- Witness for C7 at a concrete fresh state. -/
theorem claim_C7_witness :
    egFresh.apply_action Action.Challenge = (egFresh, true) ∧
    egFresh.apply_action (Action.Bid 1 3) =
      ({ dice_p1 := egFresh.dice_p1, dice_p2 := egFresh.dice_p2,
         hand_p1 := egFresh.hand_p1, hand_p2 := egFresh.hand_p2,
         current_bid := some (1, 3),
         history := egFresh.history ++ [Action.Bid 1 3],
         current_player := 1 - egFresh.current_player }, false) ∧
    (egFresh.apply_action (Action.Bid 1 3)).1.current_player ≠
      egFresh.current_player ∧
    (egFresh.apply_action (Action.Bid 1 3)).1.current_player ≤ 1 :=
  claim_C7 egFresh 1 3 (by decide)

/-! ## Node-level lemmas -/

theorem CFRNode.get_strategy_eq (node : CFRNode) (w : ℚ)
    (h1 : node.regret_sum.length = node.num_actions)
    (h2 : node.strategy_sum.length = node.num_actions) :
    node.get_strategy w =
      some (strategyFor node,
        { node with strategy_sum :=
            (List.zipWith (fun old st => old + w * st)
              node.strategy_sum (strategyFor node)) }) := by
  have hlen : (node.regret_sum.map
      (fun r => if 0 < r then r else 0)).length = node.num_actions := by
    simpa using h1
  have hstratlen : (strategyFor node).length = node.num_actions := by
    simp [strategyFor, h1]
  unfold CFRNode.get_strategy
  rw [readLoop_map_get node.regret_sum _ node.num_actions 0 (by omega)]
  simp only [List.drop_zero]
  rw [List.take_of_length_le (le_of_eq h1)]
  have hmain : readLoop (fun i =>
      match node.strategy_sum[i]?, (strategyFor node)[i]? with
      | some old, some st => some (old + w * st)
      | _, _ => none) 0 node.num_actions =
      some (List.zipWith (fun old st => old + w * st)
        node.strategy_sum (strategyFor node)) := by
    rw [readLoop_zip node.strategy_sum (strategyFor node) _ node.num_actions 0
      (by omega) (by omega)]
    simp only [List.drop_zero]
    rw [List.take_of_length_le (le_of_eq h2),
      List.take_of_length_le (le_of_eq hstratlen)]
  simp only [strategyFor] at hmain ⊢
  rw [hmain]
  have hdrop : node.strategy_sum.drop node.num_actions = [] :=
    List.drop_eq_nil_of_le (by omega)
  simp [hdrop]

theorem strategyFor_length (node : CFRNode)
    (h1 : node.regret_sum.length = node.num_actions) :
    (strategyFor node).length = node.num_actions := by
  simp [strategyFor, h1]

theorem posPart_nonneg (r : ℚ) : (0 : ℚ) ≤ if 0 < r then r else 0 := by
  split
  · linarith
  · exact le_refl 0

theorem pos_entries_nonneg (node : CFRNode) :
    ∀ y ∈ node.regret_sum.map (fun r => if 0 < r then r else 0), 0 ≤ y := by
  intro y hy
  obtain ⟨r, _, rfl⟩ := List.mem_map.mp hy
  exact posPart_nonneg r

theorem strategyFor_nonneg (node : CFRNode) :
    ∀ x ∈ strategyFor node, 0 ≤ x := by
  intro x hx
  simp only [strategyFor] at hx
  obtain ⟨s, hs, rfl⟩ := List.mem_map.mp hx
  split
  · exact div_nonneg (pos_entries_nonneg node s hs)
      (List.sum_nonneg (pos_entries_nonneg node))
  · positivity

theorem pos_sum_zero_of_nonpos (node : CFRNode)
    (h : ∀ r ∈ node.regret_sum, r ≤ 0) :
    (node.regret_sum.map (fun r => if 0 < r then r else 0)).sum = 0 := by
  apply List.sum_eq_zero
  intro x hx
  obtain ⟨r, hr, rfl⟩ := List.mem_map.mp hx
  have hr0 := h r hr
  rw [if_neg (by linarith)]

theorem pos_sum_pos_of_exists (node : CFRNode)
    (h : ¬ ∀ r ∈ node.regret_sum, r ≤ 0) :
    0 < (node.regret_sum.map (fun r => if 0 < r then r else 0)).sum := by
  push_neg at h
  obtain ⟨r, hr, hrpos⟩ := h
  have hmem : r ∈ node.regret_sum.map (fun r => if 0 < r then r else 0) :=
    List.mem_map.mpr ⟨r, hr, if_pos hrpos⟩
  exact lt_of_lt_of_le hrpos
    (List.single_le_sum (pos_entries_nonneg node) r hmem)

theorem strategyFor_uniform (node : CFRNode)
    (h : ∀ r ∈ node.regret_sum, r ≤ 0) :
    strategyFor node =
      List.replicate node.regret_sum.length (1 / (node.num_actions : ℚ)) := by
  have hz := pos_sum_zero_of_nonpos node h
  simp only [strategyFor, hz]
  rw [List.map_map]
  have : ∀ l : List ℚ, (l.map fun x =>
      if (0 : ℚ) < 0 then x / 0 else 1 / (node.num_actions : ℚ)) =
      List.replicate l.length (1 / (node.num_actions : ℚ)) := by
    intro l
    induction l with
    | nil => rfl
    | cons x xs ih => simp [List.replicate, ih]
  simpa using this (node.regret_sum.map fun r => if 0 < r then r else 0)

theorem strategyFor_normalized (node : CFRNode)
    (h : ¬ ∀ r ∈ node.regret_sum, r ≤ 0) :
    strategyFor node =
      (node.regret_sum.map (fun r => if 0 < r then r else 0)).map
        (fun s => s /
          (node.regret_sum.map (fun r => if 0 < r then r else 0)).sum) := by
  have hp := pos_sum_pos_of_exists node h
  simp only [strategyFor]
  apply List.map_congr_left
  intro x _
  rw [if_pos hp]

theorem strategyFor_sum (node : CFRNode) (hpos : 0 < node.num_actions)
    (h1 : node.regret_sum.length = node.num_actions) :
    (strategyFor node).sum = 1 := by
  by_cases h : ∀ r ∈ node.regret_sum, r ≤ 0
  · rw [strategyFor_uniform node h, List.sum_replicate, h1, nsmul_eq_mul]
    rw [mul_one_div, div_self]
    exact Nat.cast_ne_zero.mpr hpos.ne'
  · rw [strategyFor_normalized node h, sum_map_div, div_self]
    exact ne_of_gt (pos_sum_pos_of_exists node h)

/-- C4: for every well-formed node with at least one action, `get_strategy`
returns exactly `num_actions` non-negative entries summing to 1 — the
normalized positive regrets, or the uniform distribution when no regret is
positive — and `get_average_strategy` likewise returns `num_actions`
non-negative entries summing to 1, normalizing `strategy_sum` with the
uniform fallback when that sum is zero. -/
theorem claim_C4 (node : CFRNode) (w : ℚ) (hWF : NodeWF node)
    (hpos : 0 < node.num_actions) :
    (∃ strategy node1, node.get_strategy w = some (strategy, node1) ∧
      strategy.length = node.num_actions ∧
      (∀ x ∈ strategy, 0 ≤ x) ∧ strategy.sum = 1 ∧
      ((∀ r ∈ node.regret_sum, r ≤ 0) →
        strategy = List.replicate node.num_actions (1 / (node.num_actions : ℚ))) ∧
      (¬ (∀ r ∈ node.regret_sum, r ≤ 0) →
        strategy = (node.regret_sum.map (fun r => if 0 < r then r else 0)).map
          (fun s => s /
            (node.regret_sum.map (fun r => if 0 < r then r else 0)).sum))) ∧
    ((∀ x ∈ node.strategy_sum, 0 ≤ x) →
      ∃ avg, node.get_average_strategy = some avg ∧
        avg.length = node.num_actions ∧ (∀ x ∈ avg, 0 ≤ x) ∧ avg.sum = 1 ∧
        (node.strategy_sum.sum = 0 →
          avg = List.replicate node.num_actions (1 / (node.num_actions : ℚ)))) := by
  obtain ⟨h1, h2⟩ := hWF
  constructor
  · refine ⟨strategyFor node, _, node.get_strategy_eq w h1 h2, ?_, ?_, ?_, ?_, ?_⟩
    · exact strategyFor_length node h1
    · exact strategyFor_nonneg node
    · exact strategyFor_sum node hpos h1
    · intro h; rw [strategyFor_uniform node h, h1]
    · intro h; exact strategyFor_normalized node h
  · intro hnn
    by_cases hS : 0 < node.strategy_sum.sum
    · refine ⟨node.strategy_sum.map (· / node.strategy_sum.sum), ?_, ?_, ?_, ?_, ?_⟩
      · unfold CFRNode.get_average_strategy
        simp only [if_pos hS]
        rw [readLoop_map_get node.strategy_sum _ node.num_actions 0 (by omega)]
        simp only [List.drop_zero]
        rw [← h2, List.take_length]
      · simp [h2]
      · intro x hx
        obtain ⟨s, hs, rfl⟩ := List.mem_map.mp hx
        exact div_nonneg (hnn s hs) (le_of_lt hS)
      · rw [sum_map_div, div_self (ne_of_gt hS)]
      · intro h0; rw [h0] at hS; exact absurd hS (lt_irrefl 0)
    · have hS0 : node.strategy_sum.sum = 0 :=
        le_antisymm (not_lt.mp hS) (List.sum_nonneg hnn)
      refine ⟨List.replicate node.num_actions (1 / (node.num_actions : ℚ)),
        ?_, ?_, ?_, ?_, ?_⟩
      · unfold CFRNode.get_average_strategy
        simp only [if_neg hS]
        exact readLoop_const _ node.num_actions 0
      · simp
      · intro x hx
        rw [List.eq_of_mem_replicate hx]
        positivity
      · rw [List.sum_replicate, nsmul_eq_mul, mul_one_div, div_self]
        exact Nat.cast_ne_zero.mpr hpos.ne'
      · intro _; rfl

theorem updateRegrets_eq (node : CFRNode) (n : ℕ) (w : ℚ) (util : List ℚ)
    (nu : ℚ) (h1 : node.regret_sum.length = n) (h2 : util.length = n) :
    updateRegrets node n w util nu =
      some { node with regret_sum :=
        (List.zipWith (fun old u => max (old + w * (u - nu)) 0)
          node.regret_sum util) } := by
  unfold updateRegrets
  rw [readLoop_zip node.regret_sum util _ n 0 (by omega) (by omega)]
  simp only [List.drop_zero]
  rw [List.take_of_length_le (le_of_eq h1), List.take_of_length_le (le_of_eq h2)]
  have hdrop : node.regret_sum.drop n = [] := List.drop_eq_nil_of_le (by omega)
  simp [hdrop]

theorem get_strategy_spec (node : CFRNode) (w : ℚ)
    (h1 : node.regret_sum.length = node.num_actions)
    (h2 : node.strategy_sum.length = node.num_actions) :
    ∃ strategy node1, node.get_strategy w = some (strategy, node1) ∧
      strategy = strategyFor node ∧
      node1.regret_sum = node.regret_sum ∧
      node1.num_actions = node.num_actions ∧
      node1.strategy_sum = List.zipWith (fun old st => old + w * st)
        node.strategy_sum strategy := by
  refine ⟨strategyFor node, _, node.get_strategy_eq w h1 h2, rfl, rfl, rfl, rfl⟩

theorem updateRegrets_spec (node : CFRNode) (n : ℕ) (w : ℚ) (util : List ℚ)
    (nu : ℚ) (h1 : node.regret_sum.length = n) (h2 : util.length = n) :
    ∃ node2, updateRegrets node n w util nu = some node2 ∧
      node2.regret_sum = List.zipWith
        (fun old u => max (old + w * (u - nu)) 0) node.regret_sum util ∧
      node2.strategy_sum = node.strategy_sum ∧
      node2.num_actions = node.num_actions := by
  refine ⟨_, updateRegrets_eq node n w util nu h1 h2, rfl, rfl, rfl⟩

theorem readLoop_mem {f : ℕ → Option ℚ} :
    ∀ {c s l}, readLoop f s c = some l → ∀ x ∈ l, ∃ j, f j = some x := by
  intro c
  induction c with
  | zero =>
      intro s l h x hx
      simp only [readLoop] at h
      cases h
      simp at hx
  | succ c ih =>
      intro s l h x hx
      simp only [readLoop] at h
      cases hf : f s with
      | none => rw [hf] at h; exact absurd h (by simp)
      | some y =>
          rw [hf] at h
          cases hr : readLoop f (s + 1) c with
          | none => rw [hr] at h; exact absurd h (by simp)
          | some ys =>
              rw [hr] at h
              cases h
              rcases List.mem_cons.mp hx with rfl | hx'
              · exact ⟨s, hf⟩
              · exact ih hr x hx'

theorem get_strategy_frame {node : CFRNode} {w : ℚ} {strategy : List ℚ}
    {node1 : CFRNode} (h : node.get_strategy w = some (strategy, node1)) :
    node1.regret_sum = node.regret_sum ∧
      node1.num_actions = node.num_actions := by
  unfold CFRNode.get_strategy at h
  split at h
  · exact absurd h (by simp)
  · dsimp only at h
    split at h
    · exact absurd h (by simp)
    · rw [Option.some_inj] at h
      injection h with hA hB
      rw [← hB]
      exact ⟨rfl, rfl⟩

theorem updateRegrets_frame {node : CFRNode} {n : ℕ} {w : ℚ} {util : List ℚ}
    {nu : ℚ} {node2 : CFRNode} (h : updateRegrets node n w util nu = some node2) :
    node2.strategy_sum = node.strategy_sum ∧
      node2.num_actions = node.num_actions := by
  unfold updateRegrets at h
  split at h
  · exact absurd h (by simp)
  · rw [Option.some_inj] at h
    rw [← h]
    exact ⟨rfl, rfl⟩

theorem updateRegrets_nonneg {node : CFRNode} {n : ℕ} {w : ℚ} {util : List ℚ}
    {nu : ℚ} {node2 : CFRNode} (h : updateRegrets node n w util nu = some node2)
    (hn : NodeNonneg node) : NodeNonneg node2 := by
  unfold updateRegrets at h
  split at h
  · exact absurd h (by simp)
  · rename_i r hr
    rw [Option.some_inj] at h
    intro x hx
    rw [← h] at hx
    simp only at hx
    rcases List.mem_append.mp hx with hx' | hx'
    · obtain ⟨j, hj⟩ := readLoop_mem hr x hx'
      revert hj
      cases node.regret_sum[j]? <;> cases util[j]? <;> intro hj <;>
        simp only at hj
      · exact absurd hj (by simp)
      · exact absurd hj (by simp)
      · exact absurd hj (by simp)
      · rw [Option.some_inj] at hj
        rw [← hj]
        exact le_max_right _ _
    · exact hn x (List.mem_of_mem_drop hx')

/-! ## Table lemmas -/

theorem lookupT_insertT (T : Table) (k k' : String) (n : CFRNode) :
    lookupT (insertT T k n) k' = if k' = k then some n else lookupT T k' := by
  induction T with
  | nil =>
      by_cases h : k' = k
      · simp [insertT, lookupT, h]
      · simp [insertT, lookupT, h, Ne.symm h]
  | cons p rest ih =>
      rcases p with ⟨k0, m⟩
      by_cases h0 : k0 = k
      · subst h0
        by_cases h : k' = k0
        · simp [insertT, lookupT, h]
        · simp [insertT, lookupT, h, Ne.symm h]
      · rw [insertT, if_neg h0]
        by_cases h : k0 = k'
        · subst h
          rw [lookupT, if_pos rfl, if_neg h0, lookupT, if_pos rfl]
        · rw [lookupT, if_neg h, lookupT, if_neg h, ih]

theorem mem_insertT {T : Table} {k : String} {n : CFRNode} :
    ∀ p ∈ insertT T k n, p = (k, n) ∨ p ∈ T := by
  induction T with
  | nil => intro p hp; simp [insertT] at hp; left; exact hp
  | cons q rest ih =>
      rcases q with ⟨k0, m⟩
      intro p hp
      rw [insertT] at hp
      by_cases h0 : k0 = k
      · rw [if_pos h0] at hp
        rcases List.mem_cons.mp hp with rfl | hp'
        · left; rfl
        · right; exact List.mem_cons_of_mem _ hp'
      · rw [if_neg h0] at hp
        rcases List.mem_cons.mp hp with rfl | hp'
        · right; exact List.mem_cons_self _ _
        · rcases ih p hp' with h | h
          · left; exact h
          · right; exact List.mem_cons_of_mem _ h

theorem lookupT_mem {T : Table} {k : String} {n : CFRNode}
    (h : lookupT T k = some n) : (k, n) ∈ T := by
  induction T with
  | nil => simp [lookupT] at h
  | cons p rest ih =>
      rcases p with ⟨k0, m⟩
      rw [lookupT] at h
      by_cases h0 : k0 = k
      · rw [if_pos h0] at h
        rw [Option.some_inj] at h
        subst h0; subst h
        exact List.mem_cons_self _ _
      · rw [if_neg h0] at h
        exact List.mem_cons_of_mem _ (ih h)

theorem TableNonneg_insertT {T : Table} {k : String} {n : CFRNode}
    (hT : TableNonneg T) (hn : NodeNonneg n) : TableNonneg (insertT T k n) := by
  intro p hp
  rcases mem_insertT p hp with rfl | hp'
  · exact hn
  · exact hT p hp'

theorem TableNonneg_lookup {T : Table} {k : String} {n : CFRNode}
    (hT : TableNonneg T) (h : lookupT T k = some n) : NodeNonneg n :=
  hT (k, n) (lookupT_mem h)

/-! ## Bid escalation and state invariants -/

theorem bid_mem_props {g : GameState} {D q f : ℕ} (hok : StateOK D g)
    (hmem : Action.Bid q f ∈ g.get_valid_actions) :
    bidOK D (some (q, f)) ∧ bidRank g.current_bid < bidRank (some (q, f)) := by
  obtain ⟨htot, hbid⟩ := hok
  rcases g.mem_get_valid_actions_bid hmem with
    ⟨hnone, hq1, hq2, hf1, hf2⟩ | ⟨cq, cf, hcb, hcase⟩
  · rw [hnone]
    refine ⟨⟨hq1, by omega, hf1, hf2⟩, ?_⟩
    simp only [bidRank]
    omega
  · rw [hcb] at hbid ⊢
    obtain ⟨hcq1, hcq2, hcf1, hcf2⟩ := hbid
    rcases hcase with ⟨rfl, hfa, hfb⟩ | ⟨hqa, hqb, hf1, hf2⟩
    · refine ⟨⟨hcq1, by omega, by omega, by omega⟩, ?_⟩
      simp only [bidRank]
      omega
    · refine ⟨⟨by omega, by omega, hf1, hf2⟩, ?_⟩
      simp only [bidRank]
      omega

theorem bidRank_le_of_bidOK {D : ℕ} {b : Option (ℕ × ℕ)} (h : bidOK D b) :
    bidRank b ≤ 6 * D := by
  cases b with
  | none => simp [bidRank]
  | some p =>
      rcases p with ⟨q, f⟩
      obtain ⟨h1, h2, h3, h4⟩ := h
      simp only [bidRank]
      omega

theorem apply_bid_fields (g : GameState) (q f : ℕ) :
    (g.apply_action (Action.Bid q f)).1.current_bid = some (q, f) ∧
    (g.apply_action (Action.Bid q f)).1.total_dice = g.total_dice ∧
    (g.apply_action (Action.Bid q f)).1.history.length = g.history.length + 1 ∧
    (g.apply_action (Action.Bid q f)).2 = false := by
  refine ⟨rfl, rfl, ?_, rfl⟩
  show (g.history ++ [Action.Bid q f]).length = g.history.length + 1
  simp

theorem apply_action_terminal_eq {g : GameState} {a : Action}
    (h : (g.apply_action a).2 = true) :
    a = Action.Challenge ∧ (g.apply_action a).1 = g := by
  cases a with
  | Challenge => exact ⟨rfl, rfl⟩
  | Bid q f => exact absurd h (by simp [GameState.apply_action])

theorem apply_action_nonterminal_bid {g : GameState} {a : Action}
    (h : ¬ (g.apply_action a).2 = true) :
    ∃ q f, a = Action.Bid q f := by
  cases a with
  | Challenge => exact absurd rfl h
  | Bid q f => exact ⟨q, f, rfl⟩

theorem StateOK_apply_bid {g : GameState} {D q f : ℕ} (hok : StateOK D g)
    (hb : bidOK D (some (q, f))) :
    StateOK D (g.apply_action (Action.Bid q f)).1 := by
  obtain ⟨h1, h2, -, -⟩ := apply_bid_fields g q f
  exact ⟨h2.trans hok.1, h1 ▸ hb⟩

/-! ## Table invariant lemmas -/

theorem TableOK_insertT {D : ℕ} {T : Table} {k : String} {n : CFRNode}
    (hT : TableOK D T) (hWF : NodeWF n)
    (hnum : ∀ g' : GameState, StateOK D g' → g'.get_information_set = k →
      (g'.get_valid_actions).length = n.num_actions) :
    TableOK D (insertT T k n) := by
  intro k' n' hl
  rw [lookupT_insertT] at hl
  by_cases h : k' = k
  · rw [if_pos h] at hl
    rw [Option.some_inj] at hl
    subst hl
    subst h
    exact ⟨hWF, hnum⟩
  · rw [if_neg h] at hl
    exact hT k' n' hl

theorem TableExtends_refl (T : Table) : TableExtends T T := fun _ h => h

theorem TableExtends_trans {T1 T2 T3 : Table} (h1 : TableExtends T1 T2)
    (h2 : TableExtends T2 T3) : TableExtends T1 T3 :=
  fun k h => h2 k (h1 k h)

theorem TableExtends_insertT (T : Table) (k : String) (n : CFRNode) :
    TableExtends T (insertT T k n) := by
  intro k' h
  rw [lookupT_insertT]
  by_cases he : k' = k
  · simp [he]
  · rw [if_neg he]
    exact h

theorem ModifiedKeysLen_refl (L : ℕ) (T : Table) : ModifiedKeysLen L T T :=
  fun _ hne => absurd rfl hne

theorem ModifiedKeysLen_trans {L : ℕ} {T1 T2 T3 : Table}
    (h1 : ModifiedKeysLen L T1 T2) (h2 : ModifiedKeysLen L T2 T3) :
    ModifiedKeysLen L T1 T3 := by
  intro k hne
  by_cases he : lookupT T2 k = lookupT T1 k
  · exact h2 k (fun hc => hne (hc.trans he))
  · exact h1 k he

theorem ModifiedKeysLen_mono {L L' : ℕ} {T T' : Table} (h : L' ≤ L)
    (hm : ModifiedKeysLen L T T') : ModifiedKeysLen L' T T' := by
  intro k hne
  obtain ⟨g', hg1, hg2⟩ := hm k hne
  exact ⟨g', hg1, le_trans h hg2⟩

theorem ModifiedKeysLen_insertT {L : ℕ} (T : Table) {k : String}
    (n : CFRNode) (hwit : ∃ g' : GameState,
      k = g'.get_information_set ∧ L ≤ g'.history.length) :
    ModifiedKeysLen L T (insertT T k n) := by
  intro k' hne
  rw [lookupT_insertT] at hne
  by_cases he : k' = k
  · subst he
    exact hwit
  · rw [if_neg he] at hne
    exact absurd rfl hne

/-! ## Non-negativity is preserved by `cfr` (the CFR+ floor) -/

theorem cfrActions_nonneg
    (rec : GameState → ℚ → ℚ → Table → Option (ℚ × Table))
    (hrec : ∀ g' p0' p1' T, TableNonneg T → ∀ v T',
      rec g' p0' p1' T = some (v, T') → TableNonneg T')
    (g : GameState) (p0w p1w : ℚ) (strategy : List ℚ) :
    ∀ acts i T, TableNonneg T → ∀ us nu T'',
      cfrActions rec g p0w p1w strategy i acts T = some (us, nu, T'') →
      TableNonneg T'' := by
  intro acts
  induction acts with
  | nil =>
      intro i T hT us nu T'' h
      simp only [cfrActions] at h
      cases h
      exact hT
  | cons a rest ih =>
      intro i T hT us nu T'' h
      rw [cfrActions] at h
      cases hst : strategy[i]? with
      | none => rw [hst] at h; exact absurd h (by simp)
      | some st =>
          rw [hst] at h
          dsimp only at h
          by_cases hterm : (g.apply_action a).2 = true
          · rw [if_pos hterm] at h
            dsimp only at h
            cases hrest : cfrActions rec g p0w p1w strategy (i + 1) rest T with
            | none => rw [hrest] at h; exact absurd h (by simp)
            | some res =>
                rcases res with ⟨us', nu', T1⟩
                rw [hrest] at h
                simp only [Option.some.injEq, Prod.mk.injEq] at h
                obtain ⟨-, -, rfl⟩ := h
                exact ih (i + 1) T hT us' nu' T1 hrest
          · rw [if_neg hterm] at h
            cases hcall : (if g.current_player = 0 then
                rec (g.apply_action a).1 (p0w * st) p1w T
              else rec (g.apply_action a).1 p0w (p1w * st) T) with
            | none => rw [hcall] at h; exact absurd h (by simp)
            | some vT =>
                rcases vT with ⟨v, T1⟩
                rw [hcall] at h
                dsimp only at h
                have hT1 : TableNonneg T1 := by
                  by_cases hp : g.current_player = 0
                  · rw [if_pos hp] at hcall
                    exact hrec (g.apply_action a).1 (p0w * st) p1w T hT v T1 hcall
                  · rw [if_neg hp] at hcall
                    exact hrec (g.apply_action a).1 p0w (p1w * st) T hT v T1 hcall
                cases hrest : cfrActions rec g p0w p1w strategy (i + 1) rest T1 with
                | none => rw [hrest] at h; exact absurd h (by simp)
                | some res =>
                    rcases res with ⟨us', nu', T2⟩
                    rw [hrest] at h
                    simp only [Option.some.injEq, Prod.mk.injEq] at h
                    obtain ⟨-, -, rfl⟩ := h
                    exact ih (i + 1) T1 hT1 us' nu' T2 hrest

theorem cfr_nonneg : ∀ fuel (g : GameState) (p0w p1w : ℚ) (T : Table),
    TableNonneg T → ∀ v T', cfr fuel g p0w p1w T = some (v, T') →
    TableNonneg T' := by
  intro fuel
  induction fuel with
  | zero => intro g p0w p1w T _ v T' h; exact absurd h (by simp [cfr])
  | succ fuel ih =>
      intro g p0w p1w T hT v T' h
      rw [cfr] at h
      dsimp only at h
      by_cases hacts : g.get_valid_actions = []
      · rw [if_pos hacts] at h
        simp only [Option.some.injEq, Prod.mk.injEq] at h
        obtain ⟨-, rfl⟩ := h
        exact hT
      · rw [if_neg hacts] at h
        have hnode0nn : NodeNonneg ((lookupT T g.get_information_set).getD
            (CFRNode.new g.get_valid_actions.length)) := by
          cases hl : lookupT T g.get_information_set with
          | none =>
              intro x hx
              simp only [Option.getD, CFRNode.new] at hx
              rw [List.eq_of_mem_replicate hx]
          | some m =>
              simpa using TableNonneg_lookup hT hl
        cases hgs : ((lookupT T g.get_information_set).getD
            (CFRNode.new g.get_valid_actions.length)).get_strategy
            (if g.current_player = 0 then p0w else p1w) with
        | none => rw [hgs] at h; exact absurd h (by simp)
        | some sp =>
            rcases sp with ⟨strategy, node1⟩
            rw [hgs] at h
            dsimp only at h
            have hnode1nn : NodeNonneg node1 := by
              obtain ⟨hr, -⟩ := get_strategy_frame hgs
              intro x hx
              rw [hr] at hx
              exact hnode0nn x hx
            have hT1 : TableNonneg
                (insertT T g.get_information_set node1) :=
              TableNonneg_insertT hT hnode1nn
            cases hloop : cfrActions (cfr fuel) g p0w p1w strategy 0
                g.get_valid_actions (insertT T g.get_information_set node1) with
            | none => rw [hloop] at h; exact absurd h (by simp)
            | some res =>
                rcases res with ⟨util, node_util, T2⟩
                rw [hloop] at h
                dsimp only at h
                have hT2 : TableNonneg T2 :=
                  cfrActions_nonneg (cfr fuel)
                    (fun g' a b Tx hTx vx T'x hx => ih g' a b Tx hTx vx T'x hx)
                    g p0w p1w strategy g.get_valid_actions 0 _ hT1
                    util node_util T2 hloop
                cases hlk : lookupT T2 g.get_information_set with
                | none => rw [hlk] at h; exact absurd h (by simp)
                | some node_ref =>
                    rw [hlk] at h
                    dsimp only at h
                    cases hupd : updateRegrets node_ref
                        g.get_valid_actions.length
                        (if g.current_player = 0 then p1w else p0w)
                        util node_util with
                    | none => rw [hupd] at h; exact absurd h (by simp)
                    | some node2 =>
                        rw [hupd] at h
                        simp only [Option.some.injEq, Prod.mk.injEq] at h
                        obtain ⟨-, rfl⟩ := h
                        exact TableNonneg_insertT hT2
                          (updateRegrets_nonneg hupd
                            (TableNonneg_lookup hT2 hlk))

/-! ## The `cfr` success contract -/

theorem cfrActions_ok (D : ℕ) (g : GameState) (p0w p1w : ℚ)
    (strategy : List ℚ)
    (rec : GameState → ℚ → ℚ → Table → Option (ℚ × Table))
    (hok : StateOK D g)
    (hrec : ∀ g' p0' p1' T', StateOK D g' → TableOK D T' →
      bidRank g.current_bid < bidRank g'.current_bid →
      g'.history.length = g.history.length + 1 →
      CfrEnsures D g' T' (rec g' p0' p1' T')) :
    ∀ acts, (∀ a ∈ acts, a ∈ g.get_valid_actions) →
      ∀ i T, TableOK D T → i + acts.length ≤ strategy.length →
      ∃ us T'', cfrActions rec g p0w p1w strategy i acts T =
          some (us, (List.zipWith (· * ·) (strategy.drop i) us).sum, T'') ∧
        us.length = acts.length ∧ TableOK D T'' ∧ TableExtends T T'' ∧
        ModifiedKeysLen (g.history.length + 1) T T'' := by
  intro acts
  induction acts with
  | nil =>
      intro _ i T hT _
      refine ⟨[], T, ?_, rfl, hT, TableExtends_refl T, ModifiedKeysLen_refl _ T⟩
      rw [cfrActions]
      simp
  | cons a rest ih =>
      intro hmem i T hT hilen
      have hi : i < strategy.length := by
        have := List.length_cons a rest
        omega
      have hst : strategy[i]? = some strategy[i] := List.getElem?_eq_getElem hi
      have hdropi : strategy.drop i = strategy[i] :: strategy.drop (i + 1) :=
        List.drop_eq_getElem_cons hi
      rw [cfrActions, hst]
      dsimp only
      by_cases hterm : (g.apply_action a).2 = true
      · rw [if_pos hterm]
        dsimp only
        obtain ⟨us', T'', heq, hlen, hTok, hext, hmod⟩ :=
          ih (fun x hx => hmem x (List.mem_cons_of_mem a hx)) (i + 1) T hT
            (by simp at hilen ⊢; omega)
        rw [heq]
        dsimp only
        refine ⟨(g.apply_action a).1.get_payoff :: us', T'', ?_, by simp [hlen],
          hTok, hext, hmod⟩
        rw [hdropi, List.zipWith_cons_cons, List.sum_cons]
      · rw [if_neg hterm]
        obtain ⟨q, f, rfl⟩ := apply_action_nonterminal_bid hterm
        obtain ⟨hbOK, hrank⟩ := bid_mem_props hok (hmem _ (List.mem_cons_self _ _))
        have hokChild : StateOK D (g.apply_action (Action.Bid q f)).1 :=
          StateOK_apply_bid hok hbOK
        have hrankChild :
            bidRank g.current_bid <
              bidRank (g.apply_action (Action.Bid q f)).1.current_bid := by
          rw [(apply_bid_fields g q f).1]
          exact hrank
        have hlenChild :
            (g.apply_action (Action.Bid q f)).1.history.length =
              g.history.length + 1 := (apply_bid_fields g q f).2.2.1
        by_cases hp : g.current_player = 0
        · rw [if_pos hp]
          obtain ⟨v, T1, hceq, hT1, hext1, hmod1⟩ :=
            hrec (g.apply_action (Action.Bid q f)).1 (p0w * strategy[i]) p1w T
              hokChild hT hrankChild hlenChild
          rw [hceq]
          dsimp only
          obtain ⟨us', T'', heq, hlen, hTok, hext, hmod⟩ :=
            ih (fun x hx => hmem x (List.mem_cons_of_mem _ hx)) (i + 1) T1 hT1
              (by simp at hilen ⊢; omega)
          rw [heq]
          dsimp only
          refine ⟨-v :: us', T'', ?_, by simp [hlen], hTok,
            TableExtends_trans hext1 hext, ?_⟩
          · rw [hdropi, List.zipWith_cons_cons, List.sum_cons]
          · refine ModifiedKeysLen_trans ?_ hmod
            intro k hk
            obtain ⟨g', hg1, hg2⟩ := hmod1 k hk
            exact ⟨g', hg1, by omega⟩
        · rw [if_neg hp]
          obtain ⟨v, T1, hceq, hT1, hext1, hmod1⟩ :=
            hrec (g.apply_action (Action.Bid q f)).1 p0w (p1w * strategy[i]) T
              hokChild hT hrankChild hlenChild
          rw [hceq]
          dsimp only
          obtain ⟨us', T'', heq, hlen, hTok, hext, hmod⟩ :=
            ih (fun x hx => hmem x (List.mem_cons_of_mem _ hx)) (i + 1) T1 hT1
              (by simp at hilen ⊢; omega)
          rw [heq]
          dsimp only
          refine ⟨-v :: us', T'', ?_, by simp [hlen], hTok,
            TableExtends_trans hext1 hext, ?_⟩
          · rw [hdropi, List.zipWith_cons_cons, List.sum_cons]
          · refine ModifiedKeysLen_trans ?_ hmod
            intro k hk
            obtain ⟨g', hg1, hg2⟩ := hmod1 k hk
            exact ⟨g', hg1, by omega⟩

theorem cfr_ok : ∀ fuel D (g : GameState) (p0w p1w : ℚ) (T : Table),
    StateOK D g → TableOK D T → 6 * D + 1 ≤ fuel + bidRank g.current_bid →
    CfrEnsures D g T (cfr fuel g p0w p1w T) := by
  intro fuel
  induction fuel with
  | zero =>
      intro D g p0w p1w T hok _ hfuel
      exfalso
      have := bidRank_le_of_bidOK hok.2
      omega
  | succ fuel ih =>
      intro D g p0w p1w T hok hT hfuel
      by_cases hacts : g.get_valid_actions = []
      · refine ⟨0, T, ?_, hT, TableExtends_refl T, ModifiedKeysLen_refl _ T⟩
        rw [cfr]
        dsimp only
        rw [if_pos hacts]
      · obtain ⟨hnWF, hnum0⟩ : NodeWF ((lookupT T g.get_information_set).getD
            (CFRNode.new g.get_valid_actions.length)) ∧
            ((lookupT T g.get_information_set).getD
              (CFRNode.new g.get_valid_actions.length)).num_actions =
              g.get_valid_actions.length := by
          cases hl : lookupT T g.get_information_set with
          | none =>
              exact ⟨⟨by simp [CFRNode.new], by simp [CFRNode.new]⟩,
                by simp [CFRNode.new]⟩
          | some n =>
              obtain ⟨hWF, hnum⟩ := hT _ n hl
              exact ⟨hWF, (hnum g hok rfl).symm⟩
        obtain ⟨strategy, node1, hgs, hstr, hn1r, hn1n, hn1s⟩ :=
          get_strategy_spec ((lookupT T g.get_information_set).getD
            (CFRNode.new g.get_valid_actions.length))
            (if g.current_player = 0 then p0w else p1w) hnWF.1 hnWF.2
        have hstratlen : strategy.length = g.get_valid_actions.length := by
          rw [hstr, strategyFor_length _ hnWF.1, hnum0]
        have hnode1WF : NodeWF node1 := by
          constructor
          · rw [hn1r, hnWF.1, hn1n]
          · rw [hn1s, List.length_zipWith, hstr, strategyFor_length _ hnWF.1]
            rw [hnWF.2, hn1n]
            simp
        have hnumkey : ∀ g' : GameState, StateOK D g' →
            g'.get_information_set = g.get_information_set →
            (g'.get_valid_actions).length = g.get_valid_actions.length := by
          intro g' hok' hk
          rw [get_valid_actions_eq_of_info_set (hok'.1.trans hok.1.symm) hk]
        have hT1 : TableOK D (insertT T g.get_information_set node1) := by
          refine TableOK_insertT hT hnode1WF ?_
          intro g' hok' hk
          rw [hnumkey g' hok' hk, hn1n, hnum0]
        obtain ⟨us, T2, hloop, huslen, hT2, hext2, hmod2⟩ :=
          cfrActions_ok D g p0w p1w strategy (cfr fuel) hok
            (fun g' p0' p1' T' hok' hT' hrank hlen =>
              ih D g' p0' p1' T' hok' hT' (by omega))
            g.get_valid_actions (fun a ha => ha) 0 _ hT1
            (by rw [hstratlen]; omega)
        rw [List.drop_zero] at hloop
        have hlk2 : (lookupT T2 g.get_information_set).isSome := by
          apply hext2
          rw [lookupT_insertT, if_pos rfl]
          rfl
        obtain ⟨node_ref, hlk⟩ := Option.isSome_iff_exists.mp hlk2
        obtain ⟨hrefWF, hrefnum⟩ := hT2 _ node_ref hlk
        have hrefnum2 : node_ref.num_actions = g.get_valid_actions.length :=
          (hrefnum g hok rfl).symm
        obtain ⟨node2, hupd, hn2r, hn2s, hn2n⟩ :=
          updateRegrets_spec node_ref g.get_valid_actions.length
            (if g.current_player = 0 then p1w else p0w) us
            ((List.zipWith (· * ·) strategy us).sum)
            (by rw [hrefWF.1, hrefnum2]) huslen
        have hnode2WF : NodeWF node2 := by
          constructor
          · rw [hn2r, List.length_zipWith, hrefWF.1, hrefnum2, huslen, hn2n,
              hrefnum2]
            simp
          · rw [hn2s, hrefWF.2, hn2n]
        refine ⟨(List.zipWith (· * ·) strategy us).sum,
          insertT T2 g.get_information_set node2, ?_, ?_, ?_, ?_⟩
        · rw [cfr]
          dsimp only
          rw [if_neg hacts, hgs]
          dsimp only
          rw [hloop]
          dsimp only
          rw [hlk]
          dsimp only
          rw [hupd]
        · refine TableOK_insertT hT2 hnode2WF ?_
          intro g' hok' hk
          rw [hnumkey g' hok' hk, hn2n, hrefnum2]
        · exact TableExtends_trans (TableExtends_insertT T _ _)
            (TableExtends_trans hext2 (TableExtends_insertT T2 _ _))
        · refine ModifiedKeysLen_trans
            (ModifiedKeysLen_insertT T _ ⟨g, rfl, le_refl _⟩)
            (ModifiedKeysLen_trans
              (ModifiedKeysLen_mono (by omega) hmod2)
              (ModifiedKeysLen_insertT T2 _ ⟨g, rfl, le_refl _⟩))

/-- One fully characterized step of `cfr` at positive fuel on a state with
actions available: the node fetch, the single `get_strategy` accumulation,
the action loop, the untouched re-lookup, and the CFR+ regret update with the
opponent's reach weight. -/
theorem cfr_step_spec (D fuel : ℕ) (g : GameState) (p0w p1w : ℚ) (T : Table)
    (hok : StateOK D g) (hT : TableOK D T)
    (hfuel : 6 * D + 1 ≤ fuel + 1 + bidRank g.current_bid)
    (hne : g.get_valid_actions ≠ []) :
    ∃ strategy node1 util T2 node2,
      ((lookupT T g.get_information_set).getD
          (CFRNode.new g.get_valid_actions.length)).get_strategy
          (if g.current_player = 0 then p0w else p1w) = some (strategy, node1) ∧
      strategy = strategyFor ((lookupT T g.get_information_set).getD
          (CFRNode.new g.get_valid_actions.length)) ∧
      node1.regret_sum = ((lookupT T g.get_information_set).getD
          (CFRNode.new g.get_valid_actions.length)).regret_sum ∧
      node1.strategy_sum = List.zipWith
        (fun old st => old + (if g.current_player = 0 then p0w else p1w) * st)
        ((lookupT T g.get_information_set).getD
          (CFRNode.new g.get_valid_actions.length)).strategy_sum strategy ∧
      cfrActions (cfr fuel) g p0w p1w strategy 0 g.get_valid_actions
          (insertT T g.get_information_set node1) =
        some (util, (List.zipWith (· * ·) strategy util).sum, T2) ∧
      lookupT T2 g.get_information_set = some node1 ∧
      cfr (fuel + 1) g p0w p1w T =
        some ((List.zipWith (· * ·) strategy util).sum,
          insertT T2 g.get_information_set node2) ∧
      node2.regret_sum = List.zipWith
        (fun old u => max (old + (if g.current_player = 0 then p1w else p0w) *
          (u - (List.zipWith (· * ·) strategy util).sum)) 0)
        node1.regret_sum util ∧
      node2.strategy_sum = node1.strategy_sum ∧
      util.length = g.get_valid_actions.length := by
  obtain ⟨hnWF, hnum0⟩ : NodeWF ((lookupT T g.get_information_set).getD
      (CFRNode.new g.get_valid_actions.length)) ∧
      ((lookupT T g.get_information_set).getD
        (CFRNode.new g.get_valid_actions.length)).num_actions =
        g.get_valid_actions.length := by
    cases hl : lookupT T g.get_information_set with
    | none =>
        exact ⟨⟨by simp [CFRNode.new], by simp [CFRNode.new]⟩,
          by simp [CFRNode.new]⟩
    | some n =>
        obtain ⟨hWF, hnum⟩ := hT _ n hl
        exact ⟨hWF, (hnum g hok rfl).symm⟩
  obtain ⟨strategy, node1, hgs, hstr, hn1r, hn1n, hn1s⟩ :=
    get_strategy_spec ((lookupT T g.get_information_set).getD
      (CFRNode.new g.get_valid_actions.length))
      (if g.current_player = 0 then p0w else p1w) hnWF.1 hnWF.2
  have hstratlen : strategy.length = g.get_valid_actions.length := by
    rw [hstr, strategyFor_length _ hnWF.1, hnum0]
  have hnode1WF : NodeWF node1 := by
    constructor
    · rw [hn1r, hnWF.1, hn1n]
    · rw [hn1s, List.length_zipWith, hstr, strategyFor_length _ hnWF.1]
      rw [hnWF.2, hn1n]
      simp
  have hnumkey : ∀ g' : GameState, StateOK D g' →
      g'.get_information_set = g.get_information_set →
      (g'.get_valid_actions).length = g.get_valid_actions.length := by
    intro g' hok' hk
    rw [get_valid_actions_eq_of_info_set (hok'.1.trans hok.1.symm) hk]
  have hT1 : TableOK D (insertT T g.get_information_set node1) := by
    refine TableOK_insertT hT hnode1WF ?_
    intro g' hok' hk
    rw [hnumkey g' hok' hk, hn1n, hnum0]
  obtain ⟨us, T2, hloop, huslen, hT2, hext2, hmod2⟩ :=
    cfrActions_ok D g p0w p1w strategy (cfr fuel) hok
      (fun g' p0' p1' T' hok' hT' hrank hlen =>
        cfr_ok fuel D g' p0' p1' T' hok' hT' (by omega))
      g.get_valid_actions (fun a ha => ha) 0 _ hT1
      (by rw [hstratlen]; omega)
  rw [List.drop_zero] at hloop
  have hlk1 : lookupT (insertT T g.get_information_set node1)
      g.get_information_set = some node1 := by
    rw [lookupT_insertT, if_pos rfl]
  have hsame : lookupT T2 g.get_information_set =
      lookupT (insertT T g.get_information_set node1)
        g.get_information_set := by
    by_contra hch
    obtain ⟨g'', hk'', hlen''⟩ := hmod2 _ hch
    have := (get_information_set_inj hk''.symm).2
    omega
  have hlk : lookupT T2 g.get_information_set = some node1 :=
    hsame.trans hlk1
  obtain ⟨node2, hupd, hn2r, hn2s, hn2n⟩ :=
    updateRegrets_spec node1 g.get_valid_actions.length
      (if g.current_player = 0 then p1w else p0w) us
      ((List.zipWith (· * ·) strategy us).sum)
      (by rw [hn1r, hnWF.1, hnum0]) huslen
  refine ⟨strategy, node1, us, T2, node2, hgs, hstr, hn1r, hn1s, hloop, hlk,
    ?_, hn2r, hn2s, huslen⟩
  rw [cfr]
  dsimp only
  rw [if_neg hne, hgs]
  dsimp only
  rw [hloop]
  dsimp only
  rw [hlk]
  dsimp only
  rw [hupd]

/-- C2: every `cfr` call on a state with actions available returns the node
utility `Σᵢ strategy[i] · util[i]` under the current regret-matching strategy
and updates each cumulative regret to
`max(old_regret + w · (util[i] − node_util), 0)` where `w` is the *other*
player's incoming reach weight (`p1_weight` when player 0 acts, `p0_weight`
when player 1 acts), never the acting player's own weight. -/
theorem claim_C2 (D fuel : ℕ) (g : GameState) (p0w p1w : ℚ) (T : Table)
    (hok : StateOK D g) (hT : TableOK D T)
    (hfuel : 6 * D + 1 ≤ fuel + 1 + bidRank g.current_bid)
    (hne : g.get_valid_actions ≠ []) :
    ∃ strategy node1 util node_util T2 node2,
      ((lookupT T g.get_information_set).getD
          (CFRNode.new g.get_valid_actions.length)).get_strategy
          (if g.current_player = 0 then p0w else p1w) = some (strategy, node1) ∧
      cfrActions (cfr fuel) g p0w p1w strategy 0 g.get_valid_actions
          (insertT T g.get_information_set node1) =
        some (util, node_util, T2) ∧
      node_util = (List.zipWith (· * ·) strategy util).sum ∧
      cfr (fuel + 1) g p0w p1w T =
        some (node_util, insertT T2 g.get_information_set node2) ∧
      lookupT T2 g.get_information_set = some node1 ∧
      node2.regret_sum = List.zipWith
        (fun old u => max (old + (if g.current_player = 0 then p1w else p0w) *
          (u - node_util)) 0) node1.regret_sum util ∧
      node1.regret_sum = ((lookupT T g.get_information_set).getD
          (CFRNode.new g.get_valid_actions.length)).regret_sum := by
  obtain ⟨strategy, node1, util, T2, node2, hgs, hstr, hn1r, hn1s, hloop,
    hlk, hcfr, hn2r, hn2s, hulen⟩ :=
    cfr_step_spec D fuel g p0w p1w T hok hT hfuel hne
  exact ⟨strategy, node1, util, (List.zipWith (· * ·) strategy util).sum, T2,
    node2, hgs, hloop, rfl, hcfr, hlk, hn2r, hn1r⟩

/-- Witness for C2 at a concrete fresh 1v1 state against the empty table. -/
theorem claim_C2_witness :
    ∃ strategy node1 util node_util T2 node2,
      ((lookupT [] egFresh.get_information_set).getD
          (CFRNode.new egFresh.get_valid_actions.length)).get_strategy
          (if egFresh.current_player = 0 then 1 else 1) =
        some (strategy, node1) ∧
      cfrActions (cfr 12) egFresh 1 1 strategy 0 egFresh.get_valid_actions
          (insertT [] egFresh.get_information_set node1) =
        some (util, node_util, T2) ∧
      node_util = (List.zipWith (· * ·) strategy util).sum ∧
      cfr (12 + 1) egFresh 1 1 [] =
        some (node_util, insertT T2 egFresh.get_information_set node2) ∧
      lookupT T2 egFresh.get_information_set = some node1 ∧
      node2.regret_sum = List.zipWith
        (fun old u => max (old + (if egFresh.current_player = 0 then 1 else 1) *
          (u - node_util)) 0) node1.regret_sum util ∧
      node1.regret_sum = ((lookupT [] egFresh.get_information_set).getD
          (CFRNode.new egFresh.get_valid_actions.length)).regret_sum :=
  claim_C2 2 12 egFresh 1 1 [] (by decide)
    (by intro k n h; simp [lookupT] at h) (by decide) (by decide)

/-- C8: `get_strategy` mutates only `strategy_sum`, adding
`realization_weight · strategy[i]` (with the strategy it returns) to every
entry while leaving `regret_sum` and `num_actions` unchanged; and within one
`cfr` call this accumulation happens exactly once, before the regret update:
the node stored for the call's information set carries exactly one
accumulation over the fetched node's `strategy_sum`, untouched by the
recursion and by the regret update. -/
theorem claim_C8 (D fuel : ℕ) (g : GameState) (p0w p1w : ℚ) (T : Table)
    (hok : StateOK D g) (hT : TableOK D T)
    (hfuel : 6 * D + 1 ≤ fuel + 1 + bidRank g.current_bid)
    (hne : g.get_valid_actions ≠ []) :
    (∀ (node : CFRNode) (w : ℚ), NodeWF node →
      ∃ strategy node', node.get_strategy w = some (strategy, node') ∧
        node'.regret_sum = node.regret_sum ∧
        node'.num_actions = node.num_actions ∧
        node'.strategy_sum = List.zipWith (fun old st => old + w * st)
          node.strategy_sum strategy) ∧
    (∃ strategy node1 v T', cfr (fuel + 1) g p0w p1w T = some (v, T') ∧
      ((lookupT T g.get_information_set).getD
          (CFRNode.new g.get_valid_actions.length)).get_strategy
          (if g.current_player = 0 then p0w else p1w) = some (strategy, node1) ∧
      ∃ node2, lookupT T' g.get_information_set = some node2 ∧
        node2.strategy_sum = node1.strategy_sum ∧
        node1.strategy_sum = List.zipWith
          (fun old st => old + (if g.current_player = 0 then p0w else p1w) * st)
          ((lookupT T g.get_information_set).getD
            (CFRNode.new g.get_valid_actions.length)).strategy_sum
          strategy) := by
  constructor
  · intro node w hWF
    obtain ⟨strategy, node', hgs, -, hr, hn, hs⟩ :=
      get_strategy_spec node w hWF.1 hWF.2
    exact ⟨strategy, node', hgs, hr, hn, hs⟩
  · obtain ⟨strategy, node1, util, T2, node2, hgs, hstr, hn1r, hn1s, hloop,
      hlk, hcfr, hn2r, hn2s, hulen⟩ :=
      cfr_step_spec D fuel g p0w p1w T hok hT hfuel hne
    refine ⟨strategy, node1, _, _, hcfr, hgs, node2, ?_, hn2s, hn1s⟩
    rw [lookupT_insertT, if_pos rfl]

/-- Witness for C8 at a concrete fresh 1v1 state against the empty table. -/
theorem claim_C8_witness :
    (∀ (node : CFRNode) (w : ℚ), NodeWF node →
      ∃ strategy node', node.get_strategy w = some (strategy, node') ∧
        node'.regret_sum = node.regret_sum ∧
        node'.num_actions = node.num_actions ∧
        node'.strategy_sum = List.zipWith (fun old st => old + w * st)
          node.strategy_sum strategy) ∧
    (∃ strategy node1 v T', cfr (12 + 1) egFresh 1 1 [] = some (v, T') ∧
      ((lookupT [] egFresh.get_information_set).getD
          (CFRNode.new egFresh.get_valid_actions.length)).get_strategy
          (if egFresh.current_player = 0 then 1 else 1) =
        some (strategy, node1) ∧
      ∃ node2, lookupT T' egFresh.get_information_set = some node2 ∧
        node2.strategy_sum = node1.strategy_sum ∧
        node1.strategy_sum = List.zipWith
          (fun old st => old + (if egFresh.current_player = 0 then 1 else 1) * st)
          ((lookupT [] egFresh.get_information_set).getD
            (CFRNode.new egFresh.get_valid_actions.length)).strategy_sum
          strategy) :=
  claim_C8 2 12 egFresh 1 1 [] (by decide)
    (by intro k n h; simp [lookupT] at h) (by decide) (by decide)

/-- C9: every bid in `get_valid_actions` strictly exceeds the outstanding bid
in lexicographic (quantity, face) order, so bids strictly escalate along any
history; consequently the `cfr` recursion terminates on every well-formed
state, within the depth bound of `6 · total_dice` bid values plus the
terminal challenge — fuel `6 · D + 1` always suffices. -/
theorem claim_C9 (D : ℕ) (g : GameState) (p0w p1w : ℚ) (T : Table)
    (hok : StateOK D g) (hT : TableOK D T) :
    (∀ (g' : GameState) (cq cf q f : ℕ), g'.current_bid = some (cq, cf) →
      Action.Bid q f ∈ g'.get_valid_actions → bidLexLt (cq, cf) (q, f)) ∧
    (∃ v T', cfr (6 * D + 1) g p0w p1w T = some (v, T')) := by
  constructor
  · intro g' cq cf q f hcb hmem
    rcases g'.mem_get_valid_actions_bid hmem with
      ⟨hnone, -⟩ | ⟨cq', cf', hcb', hcase⟩
    · rw [hnone] at hcb
      exact absurd hcb (by simp)
    · rw [hcb] at hcb'
      rw [Option.some_inj] at hcb'
      injection hcb' with h1 h2
      subst h1
      subst h2
      rcases hcase with ⟨rfl, hf1, hf2⟩ | ⟨hq1, hq2, hf1, hf2⟩
      · exact Or.inr ⟨rfl, by omega⟩
      · exact Or.inl (by omega)
  · obtain ⟨v, T', heq, -, -, -⟩ :=
      cfr_ok (6 * D + 1) D g p0w p1w T hok hT (by omega)
    exact ⟨v, T', heq⟩

/-- Witness for C9 at a concrete fresh 1v1 state against the empty table. -/
theorem claim_C9_witness :
    (∀ (g' : GameState) (cq cf q f : ℕ), g'.current_bid = some (cq, cf) →
      Action.Bid q f ∈ g'.get_valid_actions → bidLexLt (cq, cf) (q, f)) ∧
    (∃ v T', cfr (6 * 2 + 1) egFresh 1 1 [] = some (v, T')) :=
  claim_C9 2 egFresh 1 1 [] (by decide)
    (by intro k n h; simp [lookupT] at h)

/-- C10: `cfr` never hits a partial-operation failure: any two states with
the same dice total producing the same information-set key have identical
valid-action lists (so every local index is in bounds for the node created at
first visit), and on well-formed inputs with sufficient fuel `cfr` returns
`some` — in particular the post-recursion `unwrap` lookup succeeds — and the
run never removes a table entry. -/
theorem claim_C10 (fuel D : ℕ) (g : GameState) (p0w p1w : ℚ) (T : Table)
    (hok : StateOK D g) (hT : TableOK D T)
    (hfuel : 6 * D + 1 ≤ fuel + bidRank g.current_bid) :
    (∀ g1 g2 : GameState, g1.total_dice = g2.total_dice →
      g1.get_information_set = g2.get_information_set →
      g1.get_valid_actions = g2.get_valid_actions) ∧
    (∃ v T', cfr fuel g p0w p1w T = some (v, T') ∧ TableExtends T T' ∧
      TableOK D T') := by
  constructor
  · intro g1 g2 ht hk
    exact get_valid_actions_eq_of_info_set ht hk
  · obtain ⟨v, T', heq, hTok, hext, -⟩ := cfr_ok fuel D g p0w p1w T hok hT hfuel
    exact ⟨v, T', heq, hext, hTok⟩

/-- Witness for C10: two distinct concrete states share an information-set
key and a dice total; a concrete `cfr` run against the empty table. -/
theorem claim_C10_witness :
    ((∀ g1 g2 : GameState, g1.total_dice = g2.total_dice →
      g1.get_information_set = g2.get_information_set →
      g1.get_valid_actions = g2.get_valid_actions) ∧
    (∃ v T', cfr 13 egFresh 1 1 [] = some (v, T') ∧ TableExtends [] T' ∧
      TableOK 2 T')) ∧
    egBid.total_dice = egBid2.total_dice ∧
    egBid.get_information_set = egBid2.get_information_set ∧
    egBid ≠ egBid2 :=
  ⟨claim_C10 13 2 egFresh 1 1 [] (by decide)
      (by intro k n h; simp [lookupT] at h) (by decide),
    by decide, by decide, by decide⟩

/-! ## Merge lemmas -/

theorem zipWith_add_assoc : ∀ (a b c : List ℚ),
    List.zipWith (· + ·) (List.zipWith (· + ·) a b) c =
      List.zipWith (· + ·) a (List.zipWith (· + ·) b c) := by
  intro a
  induction a with
  | nil => intro b c; simp
  | cons x xs ih =>
      intro b c
      cases b with
      | nil => simp
      | cons y ys =>
          cases c with
          | nil => simp
          | cons z zs => simp [ih, add_assoc]

theorem zipWith_add_replicate_zero : ∀ (l : List ℚ) (n : ℕ), l.length = n →
    List.zipWith (· + ·) (List.replicate n (0 : ℚ)) l = l := by
  intro l
  induction l with
  | nil => intro n _; simp
  | cons x xs ih =>
      intro n h
      cases n with
      | zero => simp at h
      | succ m =>
          rw [List.replicate_succ, List.zipWith_cons_cons, zero_add,
            ih m (by simpa using h)]

theorem mergeNodeOp_eq (n1 n2 : CFRNode) (h1 : NodeWF n1) (h2 : NodeWF n2)
    (hnum : n1.num_actions = n2.num_actions) :
    mergeNodeOp n1 n2 = some
      { regret_sum := (List.zipWith (· + ·) n1.regret_sum n2.regret_sum),
        strategy_sum := (List.zipWith (· + ·) n1.strategy_sum n2.strategy_sum),
        num_actions := n1.num_actions } := by
  have hr1 : n1.regret_sum.length = n1.num_actions := h1.1
  have hr2 : n2.regret_sum.length = n1.num_actions := by rw [h2.1, hnum]
  have hs1 : n1.strategy_sum.length = n1.num_actions := h1.2
  have hs2 : n2.strategy_sum.length = n1.num_actions := by rw [h2.2, hnum]
  unfold mergeNodeOp
  rw [readLoop_zip n1.regret_sum n2.regret_sum _ n1.num_actions 0
    (by omega) (by omega)]
  simp only [List.drop_zero]
  rw [List.take_of_length_le (le_of_eq hr1), List.take_of_length_le (le_of_eq hr2)]
  rw [readLoop_zip n1.strategy_sum n2.strategy_sum _ n1.num_actions 0
    (by omega) (by omega)]
  simp only [List.drop_zero]
  rw [List.take_of_length_le (le_of_eq hs1), List.take_of_length_le (le_of_eq hs2)]
  have hd1 : n1.regret_sum.drop n1.num_actions = [] :=
    List.drop_eq_nil_of_le (by omega)
  have hd2 : n1.strategy_sum.drop n1.num_actions = [] :=
    List.drop_eq_nil_of_le (by omega)
  simp [hd1, hd2]

theorem mergeNodeOp_new (n2 : CFRNode) (h2 : NodeWF n2) :
    mergeNodeOp (CFRNode.new n2.num_actions) n2 = some n2 := by
  obtain ⟨r, s, m⟩ := n2
  obtain ⟨hr, hs⟩ := h2
  rw [mergeNodeOp_eq _ _ ⟨by simp [CFRNode.new], by simp [CFRNode.new]⟩
    ⟨hr, hs⟩ (by simp [CFRNode.new])]
  simp only [CFRNode.new]
  rw [zipWith_add_replicate_zero r _ hr, zipWith_add_replicate_zero s _ hs]

theorem mergeNodeOp_nonneg {n1 n2 m : CFRNode}
    (h : mergeNodeOp n1 n2 = some m) (hn1 : NodeNonneg n1)
    (hn2 : NodeNonneg n2) : NodeNonneg m := by
  unfold mergeNodeOp at h
  split at h
  · exact absurd h (by simp)
  · rename_i r hr
    split at h
    · exact absurd h (by simp)
    · rw [Option.some_inj] at h
      intro x hx
      rw [← h] at hx
      simp only at hx
      rcases List.mem_append.mp hx with hx' | hx'
      · obtain ⟨j, hj⟩ := readLoop_mem hr x hx'
        cases ha : n1.regret_sum[j]? <;> cases hb : n2.regret_sum[j]? <;>
          rw [ha, hb] at hj <;> dsimp only at hj
        · exact absurd hj (by simp)
        · exact absurd hj (by simp)
        · exact absurd hj (by simp)
        · rw [Option.some_inj] at hj
          rw [← hj]
          have hma := hn1 _ (List.getElem?_mem ha)
          have hmb := hn2 _ (List.getElem?_mem hb)
          positivity
      · exact hn1 x (List.mem_of_mem_drop hx')

theorem lookupT_eq_none {T : Table} {k : String} :
    lookupT T k = none ↔ k ∉ T.map Prod.fst := by
  induction T with
  | nil => simp [lookupT]
  | cons p rest ih =>
      rcases p with ⟨k0, m⟩
      by_cases h : k0 = k
      · subst h
        simp [lookupT]
      · simp [lookupT, h, Ne.symm h, ih]

theorem mem_keys_insertT {T : Table} {k k'' : String} {n : CFRNode}
    (h : k'' ∈ (insertT T k n).map Prod.fst) :
    k'' ∈ T.map Prod.fst ∨ k'' = k := by
  induction T with
  | nil =>
      right
      simpa [insertT] using h
  | cons p rest ih =>
      rcases p with ⟨k0, m⟩
      rw [insertT] at h
      by_cases h0 : k0 = k
      · rw [if_pos h0] at h
        simp only [List.map_cons, List.mem_cons] at h ⊢
        rcases h with rfl | h
        · right; rfl
        · left; right; exact h
      · rw [if_neg h0] at h
        simp only [List.map_cons, List.mem_cons] at h ⊢
        rcases h with rfl | h
        · left; left; rfl
        · rcases ih h with h' | h'
          · left; right; exact h'
          · right; exact h'

theorem nodup_keys_insertT {T : Table} {k : String} {n : CFRNode}
    (h : (T.map Prod.fst).Nodup) : ((insertT T k n).map Prod.fst).Nodup := by
  induction T with
  | nil => simp [insertT]
  | cons p rest ih =>
      rcases p with ⟨k0, m⟩
      rw [insertT]
      by_cases h0 : k0 = k
      · rw [if_pos h0]
        subst h0
        simpa using h
      · rw [if_neg h0]
        simp only [List.map_cons, List.nodup_cons] at h ⊢
        refine ⟨?_, ih h.2⟩
        intro hmem
        rcases mem_keys_insertT hmem with h' | h'
        · exact h.1 h'
        · exact h0 h'

theorem TableWF_insertT {T : Table} {k : String} {n : CFRNode}
    (hT : TableWF T) (hn : NodeWF n) : TableWF (insertT T k n) := by
  refine ⟨nodup_keys_insertT hT.1, ?_⟩
  intro p hp
  rcases mem_insertT p hp with rfl | hp'
  · exact hn
  · exact hT.2 p hp'

theorem specMergeNode_none_right (o : Option CFRNode) :
    specMergeNode o none = o := by
  cases o <;> rfl

theorem specMergeNode_assoc (a b c : Option CFRNode) :
    specMergeNode (specMergeNode a b) c =
      specMergeNode a (specMergeNode b c) := by
  cases a <;> cases b <;> cases c <;>
    simp [specMergeNode, zipWith_add_assoc]

theorem specMergeNode_comm (a b : Option CFRNode)
    (hnum : ∀ na nb, a = some na → b = some nb →
      na.num_actions = nb.num_actions) :
    specMergeNode a b = specMergeNode b a := by
  cases a with
  | none => cases b <;> rfl
  | some na =>
      cases b with
      | none => rfl
      | some nb =>
          simp only [specMergeNode, Option.some.injEq]
          congr 1
          · exact List.zipWith_comm_of_comm _ (fun x y => add_comm x y) _ _
          · exact List.zipWith_comm_of_comm _ (fun x y => add_comm x y) _ _
          · exact hnum na nb rfl rfl

theorem specMergeNode_num_eq {oA oB : Option CFRNode} {n : CFRNode}
    (h : specMergeNode oA oB = some n) :
    (∃ nA, oA = some nA ∧ n.num_actions = nA.num_actions) ∨
      (oA = none ∧ ∃ nB, oB = some nB ∧ n = nB) := by
  cases oA with
  | none =>
      cases oB with
      | none => exact absurd h (by simp [specMergeNode])
      | some nb =>
          right
          refine ⟨rfl, nb, rfl, ?_⟩
          simp only [specMergeNode, Option.some.injEq] at h
          exact h.symm
  | some na =>
      left
      refine ⟨na, rfl, ?_⟩
      cases oB with
      | none =>
          simp only [specMergeNode, Option.some.injEq] at h
          rw [← h]
      | some nb =>
          simp only [specMergeNode, Option.some.injEq] at h
          rw [← h]

theorem merge_fold_spec : ∀ (l : Table) (acc : Table),
    (l.map Prod.fst).Nodup → (∀ p ∈ l, NodeWF p.2) → TableWF acc →
    (∀ k n1 n2, lookupT acc k = some n1 → lookupT l k = some n2 →
      n1.num_actions = n2.num_actions) →
    ∃ M, List.foldlM (fun acc kv =>
        match mergeNodeOp ((lookupT acc kv.1).getD
            (CFRNode.new kv.2.num_actions)) kv.2 with
        | none => none
        | some merged => some (insertT acc kv.1 merged)) acc l = some M ∧
      TableWF M ∧
      ∀ k, lookupT M k = specMergeNode (lookupT acc k) (lookupT l k) := by
  intro l
  induction l with
  | nil =>
      intro acc _ _ hacc _
      refine ⟨acc, rfl, hacc, ?_⟩
      intro k
      rw [show lookupT [] k = none from rfl, specMergeNode_none_right]
  | cons kv rest ih =>
      rcases kv with ⟨k0, n2⟩
      intro acc hnodup hWFl hacc hcompat
      simp only [List.map_cons, List.nodup_cons] at hnodup
      have hn2WF : NodeWF n2 := hWFl (k0, n2) (List.mem_cons_self _ _)
      have hmerge : ∃ merged, mergeNodeOp ((lookupT acc k0).getD
          (CFRNode.new n2.num_actions)) n2 = some merged ∧
          some merged = specMergeNode (lookupT acc k0) (some n2) ∧
          NodeWF merged := by
        cases hl : lookupT acc k0 with
        | none =>
            refine ⟨n2, ?_, by simp [specMergeNode], hn2WF⟩
            simpa using mergeNodeOp_new n2 hn2WF
        | some n1 =>
            have hn1WF : NodeWF n1 := hacc.2 (k0, n1) (lookupT_mem hl)
            have hnum : n1.num_actions = n2.num_actions :=
              hcompat k0 n1 n2 hl (by rw [lookupT, if_pos rfl])
            refine ⟨_, by simpa using mergeNodeOp_eq n1 n2 hn1WF hn2WF hnum,
              by simp [specMergeNode], ?_⟩
            constructor
            · simp only [List.length_zipWith]
              rw [hn1WF.1, hn2WF.1, hnum]
              simp
            · simp only [List.length_zipWith]
              rw [hn1WF.2, hn2WF.2, hnum]
              simp
      obtain ⟨merged, hmop, hmspec, hmWF⟩ := hmerge
      have hacc' : TableWF (insertT acc k0 merged) := TableWF_insertT hacc hmWF
      have hcompat' : ∀ k m1 m2, lookupT (insertT acc k0 merged) k = some m1 →
          lookupT rest k = some m2 → m1.num_actions = m2.num_actions := by
        intro k m1 m2 hm1 hm2
        have hkne : k ≠ k0 := by
          intro he
          subst he
          exact hnodup.1 (List.mem_map.mpr ⟨(k, m2), lookupT_mem hm2, rfl⟩)
        rw [lookupT_insertT, if_neg hkne] at hm1
        refine hcompat k m1 m2 hm1 ?_
        rw [lookupT, if_neg (fun he => hkne he.symm)]
        exact hm2
      obtain ⟨M, hM, hMWF, hMspec⟩ := ih (insertT acc k0 merged) hnodup.2
        (fun p hp => hWFl p (List.mem_cons_of_mem _ hp)) hacc' hcompat'
      refine ⟨M, ?_, hMWF, ?_⟩
      · rw [List.foldlM_cons]
        show (match mergeNodeOp ((lookupT acc k0).getD
            (CFRNode.new n2.num_actions)) n2 with
          | none => none
          | some merged => some (insertT acc k0 merged)) >>= _ = some M
        rw [hmop]
        exact hM
      · intro k
        by_cases hk : k = k0
        · subst hk
          have hrest_none : lookupT rest k = none :=
            lookupT_eq_none.mpr hnodup.1
          rw [hMspec k, hrest_none, specMergeNode_none_right, lookupT_insertT,
            if_pos rfl]
          rw [lookupT, if_pos rfl]
          exact hmspec
        · rw [hMspec k, lookupT_insertT, if_neg hk]
          rw [lookupT, if_neg (fun he => hk he.symm)]

theorem merge_nodes_spec (A B : Table) (hA : TableWF A) (hB : TableWF B)
    (hAB : Compat A B) :
    ∃ M, merge_nodes A B = some M ∧ TableWF M ∧
      ∀ k, lookupT M k = specMergeNode (lookupT A k) (lookupT B k) :=
  merge_fold_spec B A hB.1 hB.2 hA hAB

theorem merge_fold_nonneg : ∀ (l : Table) (acc : Table), TableNonneg acc →
    (∀ p ∈ l, NodeNonneg p.2) → ∀ M,
    List.foldlM (fun acc kv =>
        match mergeNodeOp ((lookupT acc kv.1).getD
            (CFRNode.new kv.2.num_actions)) kv.2 with
        | none => none
        | some merged => some (insertT acc kv.1 merged)) acc l = some M →
    TableNonneg M := by
  intro l
  induction l with
  | nil =>
      intro acc hacc _ M h
      rw [List.foldlM_nil] at h
      rw [show (pure acc : Option Table) = some acc from rfl,
        Option.some_inj] at h
      rw [← h]
      exact hacc
  | cons kv rest ih =>
      intro acc hacc hl M h
      rw [List.foldlM_cons] at h
      cases hmop : mergeNodeOp ((lookupT acc kv.1).getD
          (CFRNode.new kv.2.num_actions)) kv.2 with
      | none =>
          rw [hmop] at h
          exact absurd h (by simp)
      | some merged =>
          rw [hmop] at h
          have hn1 : NodeNonneg ((lookupT acc kv.1).getD
              (CFRNode.new kv.2.num_actions)) := by
            cases hlk : lookupT acc kv.1 with
            | none =>
                intro x hx
                simp only [Option.getD, CFRNode.new] at hx
                rw [List.eq_of_mem_replicate hx]
            | some n1 => simpa using TableNonneg_lookup hacc hlk
          have hmnn : NodeNonneg merged :=
            mergeNodeOp_nonneg hmop hn1 (hl kv (List.mem_cons_self _ _))
          exact ih (insertT acc kv.1 merged)
            (TableNonneg_insertT hacc hmnn)
            (fun p hp => hl p (List.mem_cons_of_mem _ hp)) M h

theorem merge_nodes_nonneg {A B M : Table} (hA : TableNonneg A)
    (hB : TableNonneg B) (h : merge_nodes A B = some M) : TableNonneg M :=
  merge_fold_nonneg B A hA hB M h

theorem lookupT_singleton {s k : String} {n m : CFRNode}
    (h : lookupT [(s, n)] k = some m) : m = n := by
  by_cases hs : s = k
  · rw [lookupT, if_pos hs] at h
    exact (Option.some_inj.mp h).symm
  · rw [lookupT, if_neg hs] at h
    simp [lookupT] at h

/-! ## Claims C3 and C6 -/

/-- C3: in every table reachable by the program — zero-initialized node
creation, any number of `cfr` updates, and any sequence of `merge_nodes`
applications — every entry of every node's `regret_sum` is non-negative at
all times (the CFR+ floor invariant). -/
theorem claim_C3 (T : Table) (h : ReachableTable T) :
    ∀ p ∈ T, ∀ x ∈ p.2.regret_sum, 0 ≤ x := by
  induction h with
  | empty => intro p hp; simp at hp
  | step fuel g p0w p1w T0 v T' _ heq ih =>
      exact cfr_nonneg fuel g p0w p1w T0 ih v T' heq
  | merge A B M _ _ hm ihA ihB => exact merge_nodes_nonneg ihA ihB hm

/-- Witness for C3 at the initial (empty) table. -/
theorem claim_C3_witness : TableNonneg [] :=
  claim_C3 [] ReachableTable.empty

/-- C6: on tables whose nodes agree on `num_actions` under equal keys,
`merge_nodes` produces, for every key present in either table, the node
whose vectors are the elementwise sums of the sources' vectors (a missing
side contributing a zero vector of matching length), and the merge is
commutative and associative entrywise:
`merge (merge A B) C`, `merge A (merge B C)` and `merge B (merge A C)`
agree on every key. -/
theorem claim_C6 (A B C : Table) (hA : TableWF A) (hB : TableWF B)
    (hC : TableWF C) (hAB : Compat A B) (hBC : Compat B C)
    (hAC : Compat A C) :
    ∃ M1 M2 M3 M4 M5 M6,
      merge_nodes A B = some M1 ∧
      (∀ k, lookupT M1 k = specMergeNode (lookupT A k) (lookupT B k)) ∧
      merge_nodes M1 C = some M2 ∧ merge_nodes B C = some M3 ∧
      merge_nodes A M3 = some M4 ∧ merge_nodes A C = some M5 ∧
      merge_nodes B M5 = some M6 ∧
      (∀ k, lookupT M2 k = lookupT M4 k) ∧
      (∀ k, lookupT M2 k = lookupT M6 k) := by
  obtain ⟨M1, h1, hW1, hs1⟩ := merge_nodes_spec A B hA hB hAB
  have hC1 : Compat M1 C := by
    intro k n nc hn hnc
    rw [hs1 k] at hn
    rcases specMergeNode_num_eq hn with ⟨na, hna, hnum⟩ | ⟨-, nb, hnb, rfl⟩
    · rw [hnum]; exact hAC k na nc hna hnc
    · exact hBC k n nc hnb hnc
  obtain ⟨M2, h2, hW2, hs2⟩ := merge_nodes_spec M1 C hW1 hC hC1
  obtain ⟨M3, h3, hW3, hs3⟩ := merge_nodes_spec B C hB hC hBC
  have hA3 : Compat A M3 := by
    intro k na n hna hn
    rw [hs3 k] at hn
    rcases specMergeNode_num_eq hn with ⟨nb, hnb, hnum⟩ | ⟨-, nc, hnc, rfl⟩
    · rw [hnum]; exact hAB k na nb hna hnb
    · exact hAC k na n hna hnc
  obtain ⟨M4, h4, hW4, hs4⟩ := merge_nodes_spec A M3 hA hW3 hA3
  obtain ⟨M5, h5, hW5, hs5⟩ := merge_nodes_spec A C hA hC hAC
  have hB5 : Compat B M5 := by
    intro k nb n hnb hn
    rw [hs5 k] at hn
    rcases specMergeNode_num_eq hn with ⟨na, hna, hnum⟩ | ⟨-, nc, hnc, rfl⟩
    · rw [hnum]; exact (hAB k na nb hna hnb).symm
    · exact hBC k nb n hnb hnc
  obtain ⟨M6, h6, hW6, hs6⟩ := merge_nodes_spec B M5 hB hW5 hB5
  refine ⟨M1, M2, M3, M4, M5, M6, h1, hs1, h2, h3, h4, h5, h6, ?_, ?_⟩
  · intro k
    rw [hs2 k, hs4 k, hs1 k, hs3 k, specMergeNode_assoc]
  · intro k
    rw [hs2 k, hs6 k, hs1 k, hs5 k]
    rw [specMergeNode_comm (lookupT A k) (lookupT B k)
      (fun na nb hna hnb => hAB k na nb hna hnb)]
    exact specMergeNode_assoc _ _ _

/-- Witness for C6 on concrete singleton tables with matching
`num_actions`. -/
theorem claim_C6_witness :
    ∃ M1 M2 M3 M4 M5 M6,
      merge_nodes [("a", egNode)] [("a", egNode)] = some M1 ∧
      (∀ k, lookupT M1 k = specMergeNode (lookupT [("a", egNode)] k)
        (lookupT [("a", egNode)] k)) ∧
      merge_nodes M1 [("b", egNode)] = some M2 ∧
      merge_nodes [("a", egNode)] [("b", egNode)] = some M3 ∧
      merge_nodes [("a", egNode)] M3 = some M4 ∧
      merge_nodes [("a", egNode)] [("b", egNode)] = some M5 ∧
      merge_nodes [("a", egNode)] M5 = some M6 ∧
      (∀ k, lookupT M2 k = lookupT M4 k) ∧
      (∀ k, lookupT M2 k = lookupT M6 k) :=
  claim_C6 [("a", egNode)] [("a", egNode)] [("b", egNode)]
    (by constructor <;> decide) (by constructor <;> decide)
    (by constructor <;> decide)
    (fun k nA nB h1 h2 => by rw [lookupT_singleton h1, lookupT_singleton h2])
    (fun k nA nB h1 h2 => by rw [lookupT_singleton h1, lookupT_singleton h2])
    (fun k nA nB h1 h2 => by rw [lookupT_singleton h1, lookupT_singleton h2])

/-- Witness for C4 at a concrete node with one positive regret. -/
theorem claim_C4_witness :
    (∃ strategy node1, egNode.get_strategy 1 = some (strategy, node1) ∧
      strategy.length = egNode.num_actions ∧
      (∀ x ∈ strategy, 0 ≤ x) ∧ strategy.sum = 1 ∧
      ((∀ r ∈ egNode.regret_sum, r ≤ 0) →
        strategy = List.replicate egNode.num_actions (1 / (egNode.num_actions : ℚ))) ∧
      (¬ (∀ r ∈ egNode.regret_sum, r ≤ 0) →
        strategy = (egNode.regret_sum.map (fun r => if 0 < r then r else 0)).map
          (fun s => s /
            (egNode.regret_sum.map (fun r => if 0 < r then r else 0)).sum))) ∧
    ((∀ x ∈ egNode.strategy_sum, 0 ≤ x) →
      ∃ avg, egNode.get_average_strategy = some avg ∧
        avg.length = egNode.num_actions ∧ (∀ x ∈ avg, 0 ≤ x) ∧ avg.sum = 1 ∧
        (egNode.strategy_sum.sum = 0 →
          avg = List.replicate egNode.num_actions (1 / (egNode.num_actions : ℚ)))) :=
  claim_C4 egNode 1 (by decide) (by decide)

end LiarsDice
